import Mathlib

/-!
Shallow embedding of the incremental-sync / album-merge pipeline of the
timeforcv repository (scripts/post_merge.py, scripts/post_diff.py,
scripts/storage.py, scripts/media_utils.py, scripts/html_sanitize.py and the
legacy monolithic orchestrator scripts/fetch_telegram.py), together with
theorems settling the frozen specification claims.

Modelling conventions:
* Python dictionaries for posts (models.PostDict) are represented by a typed
  structure with Option fields; a missing key and a None value both map to
  none, matching the way the source only ever reads these fields through
  dict.get.
* A posts_by_id dictionary is an insertion-ordered association list
  List (Int × Post); the dict invariant (distinct keys) and the caller
  invariant (key = int(post["id"])) appear as explicit hypotheses.
* Python truthiness on the fields involved: a string is truthy iff nonempty,
  an int iff nonzero, None/absent is falsy.
* Python sorted is a stable sort; it is modelled by a stable insertion sort.
-/

set_option maxHeartbeats 1000000

namespace Timeforcv

/-- One entry of ReactionInfo.details (a dict with count and emoji),
from scripts/models.py. -/
structure ReactionDetail where
  count : Int
  emoji : Option String
deriving DecidableEq, Repr

/-- scripts/models.py ReactionInfo / ReactionDict. -/
structure ReactionInfo where
  total : Int
  details : Option (List ReactionDetail)
deriving DecidableEq, Repr

/-- scripts/models.py MediaItem / MediaDict.  All fields are read through
dict.get in the merge code, hence Option. -/
structure MediaItem where
  kind : Option String
  path : Option String
  thumb : Option String
  size : Option Int
  mime : Option String
  name : Option String
deriving DecidableEq, Repr

/-- scripts/models.py Post / PostDict.  id is an Int (the normalizer always
stores int(message.id)); every other field is read via dict.get. -/
structure Post where
  id : Int
  date : Option String
  edited : Option String
  text : Option String
  html : Option String
  link : Option String
  type : Option String
  views : Option Int
  forwards : Option Int
  grouped_id : Option Int
  media : Option (List MediaItem)
  reactions : Option ReactionInfo
deriving DecidableEq, Repr

/-- A value a watched field can take, so the field loop of post_changed can
be written over a list of field names exactly like the source. -/
inductive FieldVal where
  | str (s : Option String)
  | int (i : Option Int)
  | react (r : Option ReactionInfo)
deriving DecidableEq

/-- post.get(field) for the watched field names of scripts/post_diff.py. -/
def getField (p : Post) (f : String) : FieldVal :=
  if f = "date" then .str p.date
  else if f = "html" then .str p.html
  else if f = "text" then .str p.text
  else if f = "edited" then .str p.edited
  else if f = "views" then .int p.views
  else if f = "reactions" then .react p.reactions
  else if f = "forwards" then .int p.forwards
  else if f = "type" then .str p.type
  else .str none

@[simp] theorem getField_date (p : Post) : getField p "date" = .str p.date := rfl

@[simp] theorem getField_html (p : Post) : getField p "html" = .str p.html := rfl

@[simp] theorem getField_text (p : Post) : getField p "text" = .str p.text := rfl

@[simp] theorem getField_edited (p : Post) : getField p "edited" = .str p.edited := rfl

@[simp] theorem getField_views (p : Post) : getField p "views" = .int p.views := rfl

@[simp] theorem getField_reactions (p : Post) :
    getField p "reactions" = .react p.reactions := rfl

@[simp] theorem getField_forwards (p : Post) :
    getField p "forwards" = .int p.forwards := rfl

@[simp] theorem getField_type (p : Post) : getField p "type" = .str p.type := rfl

namespace PostDiff

/-- scripts/post_diff.py WATCHED_FIELDS. -/
def WATCHED_FIELDS : List String :=
  ["date", "html", "text", "edited", "views", "reactions", "forwards", "type"]

/-- scripts/post_diff.py post_changed: return True as soon as one watched
field differs between old and new, else False. -/
def post_changed (old nw : Post) : Bool :=
  WATCHED_FIELDS.any (fun f => getField old f != getField nw f)

end PostDiff

end Timeforcv

namespace Timeforcv

/-- Boolean disequality is symmetric for a decidable-equality type. -/
theorem bne_symm_decEq {α : Type} [DecidableEq α] (x y : α) :
    (x != y) = (y != x) := by
  show (!(decide (x = y))) = (!(decide (y = x)))
  rw [decide_eq_decide.mpr eq_comm]

/-- C3: the change detector post_changed reports changed iff the two records
differ on at least one of the eight watched fields (date, html, text, edited,
views, reactions, forwards, type); it is reflexive, symmetric, and records
that agree on all eight watched fields (so differ only in media, grouping
key, or other unwatched fields) are never reported as changed. -/
theorem post_changed_watched_fields_spec :
    (∀ old nw : Post, PostDiff.post_changed old nw = true ↔
      (old.date ≠ nw.date ∨ old.html ≠ nw.html ∨ old.text ≠ nw.text ∨
       old.edited ≠ nw.edited ∨ old.views ≠ nw.views ∨
       old.reactions ≠ nw.reactions ∨ old.forwards ≠ nw.forwards ∨
       old.type ≠ nw.type)) ∧
    (∀ p : Post, PostDiff.post_changed p p = false) ∧
    (∀ a b : Post, PostDiff.post_changed a b = PostDiff.post_changed b a) ∧
    (∀ a b : Post, a.date = b.date → a.html = b.html → a.text = b.text →
      a.edited = b.edited → a.views = b.views → a.reactions = b.reactions →
      a.forwards = b.forwards → a.type = b.type →
      PostDiff.post_changed a b = false) := by
  refine ⟨?_, ?_, ?_, ?_⟩
  · intro old nw
    simp [PostDiff.post_changed, PostDiff.WATCHED_FIELDS]
  · intro p
    simp [PostDiff.post_changed, PostDiff.WATCHED_FIELDS]
  · intro a b
    simp only [PostDiff.post_changed, PostDiff.WATCHED_FIELDS, List.any_cons,
      List.any_nil, getField_date, getField_html, getField_text, getField_edited,
      getField_views, getField_reactions, getField_forwards, getField_type,
      Bool.or_false]
    rw [bne_symm_decEq (FieldVal.str a.date), bne_symm_decEq (FieldVal.str a.html),
      bne_symm_decEq (FieldVal.str a.text), bne_symm_decEq (FieldVal.str a.edited),
      bne_symm_decEq (FieldVal.int a.views),
      bne_symm_decEq (FieldVal.react a.reactions),
      bne_symm_decEq (FieldVal.int a.forwards), bne_symm_decEq (FieldVal.str a.type)]
  · intro a b h1 h2 h3 h4 h5 h6 h7 h8
    simp [PostDiff.post_changed, PostDiff.WATCHED_FIELDS,
      h1, h2, h3, h4, h5, h6, h7, h8]

/-- A concrete post used by witnesses. -/
def wPostA : Post :=
  { id := 1, date := some "2024-01-02", edited := none, text := some "hello",
    html := some "hello", link := none, type := some "text", views := some 10,
    forwards := none, grouped_id := none,
    media := some [], reactions := none }

/-- wPostA with a different media list and grouping key only. -/
def wPostB : Post :=
  { wPostA with
      media := some [{ kind := some "photo", path := some "assets/media/1.jpg",
                       thumb := none, size := some 5, mime := some "image/jpeg",
                       name := none }],
      grouped_id := some 7 }

/-- Witness for C3: two concrete records differing only in media and grouping
key are not reported as changed. -/
theorem post_changed_watched_fields_spec_witness :
    PostDiff.post_changed wPostA wPostB = false :=
  post_changed_watched_fields_spec.2.2.2 wPostA wPostB
    rfl rfl rfl rfl rfl rfl rfl rfl

/-- An insertion-ordered Python dict mapping message id to post record. -/
abbrev PostMap : Type := List (Int × Post)

/-- Keys of a posts_by_id dict, in insertion order. -/
def dictKeys (ps : PostMap) : List Int := ps.map Prod.fst

/-- posts_by_id.get(k) / posts_by_id[k]: first (only) binding of k. -/
def dictGet (ps : PostMap) (k : Int) : Option Post :=
  match ps with
  | [] => none
  | kp :: rest => if kp.1 = k then some kp.2 else dictGet rest k

/-- Python stable insertion of one post into an id-ascending list: the new
element goes after every element with a smaller-or-equal id. -/
def insertAscById (p : Post) : List Post → List Post
  | [] => [p]
  | q :: rest => if q.id ≤ p.id then q :: insertAscById p rest else p :: q :: rest

/-- sorted(posts, key=lambda p: int(p.get("id", 0))): Python sorted is a
stable ascending sort; insertion sort processing the list left to right is
stable with insertAscById. -/
def sortAscById (l : List Post) : List Post :=
  l.foldl (fun acc p => insertAscById p acc) []

/-- Stable insertion of one post into an id-descending list: the new element
goes after every element with a greater-or-equal id. -/
def insertDescById (p : Post) : List Post → List Post
  | [] => [p]
  | q :: rest => if p.id ≤ q.id then q :: insertDescById p rest else p :: q :: rest

/-- sorted(posts, key=lambda p: int(p.get("id", 0)), reverse=True): stable
descending sort. -/
def sortDescById (l : List Post) : List Post :=
  l.foldl (fun acc p => insertDescById p acc) []

namespace Storage

/-- scripts/storage.py write_posts, lines 49-53: the list of post records
serialized into docs/data/posts.json, oldest to newest
(sorted ascending by id). -/
def write_posts_list (posts_by_id : PostMap) : List Post :=
  sortAscById (posts_by_id.map Prod.snd)

end Storage

namespace FetchTelegram

/-- scripts/fetch_telegram.py write_posts, lines 398-401: the list of post
records serialized into docs/data/posts.json, newest first
(sorted with reverse=True). -/
def write_posts_list (posts_by_id : PostMap) : List Post :=
  sortDescById (posts_by_id.map Prod.snd)

end FetchTelegram

theorem insertAscById_perm (p : Post) (l : List Post) :
    (insertAscById p l).Perm (p :: l) := by
  induction l with
  | nil => simp [insertAscById]
  | cons q rest ih =>
    by_cases h : q.id ≤ p.id
    · simp only [insertAscById, if_pos h]
      exact (ih.cons q).trans (List.Perm.swap p q rest)
    · simp [insertAscById, if_neg h]

theorem insertDescById_perm (p : Post) (l : List Post) :
    (insertDescById p l).Perm (p :: l) := by
  induction l with
  | nil => simp [insertDescById]
  | cons q rest ih =>
    by_cases h : p.id ≤ q.id
    · simp only [insertDescById, if_pos h]
      exact (ih.cons q).trans (List.Perm.swap p q rest)
    · simp [insertDescById, if_neg h]

theorem insertAscById_sorted (p : Post) (l : List Post)
    (h : l.Pairwise (fun a b => a.id ≤ b.id)) :
    (insertAscById p l).Pairwise (fun a b => a.id ≤ b.id) := by
  induction l with
  | nil => simp [insertAscById]
  | cons q rest ih =>
    rcases List.pairwise_cons.mp h with ⟨hq, hrest⟩
    by_cases hle : q.id ≤ p.id
    · simp only [insertAscById, if_pos hle]
      refine List.pairwise_cons.mpr ⟨?_, ih hrest⟩
      intro b hb
      rcases List.mem_cons.mp ((insertAscById_perm p rest).mem_iff.mp hb) with hb | hb
      · subst hb; exact hle
      · exact hq b hb
    · simp only [insertAscById, if_neg hle]
      refine List.pairwise_cons.mpr ⟨?_, h⟩
      intro b hb
      rcases List.mem_cons.mp hb with hb | hb
      · subst hb; exact le_of_not_le hle
      · exact le_trans (le_of_not_le hle) (hq b hb)

theorem insertDescById_sorted (p : Post) (l : List Post)
    (h : l.Pairwise (fun a b => b.id ≤ a.id)) :
    (insertDescById p l).Pairwise (fun a b => b.id ≤ a.id) := by
  induction l with
  | nil => simp [insertDescById]
  | cons q rest ih =>
    rcases List.pairwise_cons.mp h with ⟨hq, hrest⟩
    by_cases hle : p.id ≤ q.id
    · simp only [insertDescById, if_pos hle]
      refine List.pairwise_cons.mpr ⟨?_, ih hrest⟩
      intro b hb
      rcases List.mem_cons.mp ((insertDescById_perm p rest).mem_iff.mp hb) with hb | hb
      · subst hb; exact hle
      · exact hq b hb
    · simp only [insertDescById, if_neg hle]
      refine List.pairwise_cons.mpr ⟨?_, h⟩
      intro b hb
      rcases List.mem_cons.mp hb with hb | hb
      · subst hb; exact le_of_not_le hle
      · exact le_trans (hq b hb) (le_of_not_le hle)

theorem sortAscById_perm_aux (l acc : List Post) :
    ((l.foldl (fun acc p => insertAscById p acc) acc)).Perm (acc ++ l) := by
  induction l generalizing acc with
  | nil => simp
  | cons p rest ih =>
    simp only [List.foldl_cons]
    refine (ih (insertAscById p acc)).trans ?_
    have h1 : (insertAscById p acc ++ rest).Perm ((p :: acc) ++ rest) :=
      (insertAscById_perm p acc).append_right rest
    refine h1.trans ?_
    simp only [List.cons_append]
    exact List.perm_middle.symm

theorem sortAscById_perm (l : List Post) : (sortAscById l).Perm l := by
  simpa using sortAscById_perm_aux l []

theorem sortDescById_perm_aux (l acc : List Post) :
    ((l.foldl (fun acc p => insertDescById p acc) acc)).Perm (acc ++ l) := by
  induction l generalizing acc with
  | nil => simp
  | cons p rest ih =>
    simp only [List.foldl_cons]
    refine (ih (insertDescById p acc)).trans ?_
    have h1 : (insertDescById p acc ++ rest).Perm ((p :: acc) ++ rest) :=
      (insertDescById_perm p acc).append_right rest
    refine h1.trans ?_
    simp only [List.cons_append]
    exact List.perm_middle.symm

theorem sortDescById_perm (l : List Post) : (sortDescById l).Perm l := by
  simpa using sortDescById_perm_aux l []

theorem sortAscById_sorted_aux (l acc : List Post)
    (h : acc.Pairwise (fun a b => a.id ≤ b.id)) :
    (l.foldl (fun acc p => insertAscById p acc) acc).Pairwise
      (fun a b => a.id ≤ b.id) := by
  induction l generalizing acc with
  | nil => simpa using h
  | cons p rest ih =>
    simp only [List.foldl_cons]
    exact ih _ (insertAscById_sorted p acc h)

theorem sortAscById_sorted (l : List Post) :
    (sortAscById l).Pairwise (fun a b => a.id ≤ b.id) :=
  sortAscById_sorted_aux l [] (by simp)

theorem sortDescById_sorted_aux (l acc : List Post)
    (h : acc.Pairwise (fun a b => b.id ≤ a.id)) :
    (l.foldl (fun acc p => insertDescById p acc) acc).Pairwise
      (fun a b => b.id ≤ a.id) := by
  induction l generalizing acc with
  | nil => simpa using h
  | cons p rest ih =>
    simp only [List.foldl_cons]
    exact ih _ (insertDescById_sorted p acc h)

theorem sortDescById_sorted (l : List Post) :
    (sortDescById l).Pairwise (fun a b => b.id ≤ a.id) :=
  sortDescById_sorted_aux l [] (by simp)

/-- From a weakly sorted permutation with no duplicate ids, strict sortedness. -/
theorem pairwise_strict_of_le_nodup (l : List Post)
    (hs : l.Pairwise (fun a b => a.id ≤ b.id))
    (hn : (l.map Post.id).Nodup) :
    l.Pairwise (fun a b => a.id < b.id) := by
  have hne : l.Pairwise (fun a b => a.id ≠ b.id) :=
    (List.pairwise_map.mp hn)
  exact (hs.and hne).imp (fun h => lt_of_le_of_ne h.1 h.2)

theorem pairwise_strict_of_ge_nodup (l : List Post)
    (hs : l.Pairwise (fun a b => b.id ≤ a.id))
    (hn : (l.map Post.id).Nodup) :
    l.Pairwise (fun a b => b.id < a.id) := by
  have hne : l.Pairwise (fun a b => a.id ≠ b.id) :=
    (List.pairwise_map.mp hn)
  exact (hs.and hne).imp (fun h => lt_of_le_of_ne h.1 (Ne.symm h.2))

end Timeforcv

namespace Timeforcv

/-- A post like wPostA but with id 2 and different text. -/
def wPost2 : Post :=
  { wPostA with id := 2, text := some "second", html := some "second" }

/-- A two-post store used as concrete input in counterexamples/witnesses. -/
def cexMap : PostMap := [(1, wPostA), (2, wPost2)]

/-- C8 counterexample: the orchestrator that actually persists
docs/data/posts.json (scripts/fetch_telegram.py write_posts) writes the
records newest first: on a two-post store the written sequence of ids is
[2, 1], which is not ascending. -/
theorem write_posts_ascending_counterexample :
    (FetchTelegram.write_posts_list cexMap).map Post.id = [2, 1] ∧
    ¬ ((FetchTelegram.write_posts_list cexMap).map Post.id).Pairwise
        (fun a b => a < b) := by
  constructor
  · rfl
  · decide

/-- C8 amended: storage.write_posts persists the post records sorted in
strictly ascending id order (oldest to newest), while the legacy writer in
scripts/fetch_telegram.py persists them in strictly descending id order
(newest first); both write exactly the records of the map. -/
theorem write_posts_order_spec (ps : PostMap)
    (hids : ((ps.map Prod.snd).map Post.id).Nodup) :
    (Storage.write_posts_list ps).Perm (ps.map Prod.snd) ∧
    (Storage.write_posts_list ps).Pairwise (fun a b => a.id < b.id) ∧
    (FetchTelegram.write_posts_list ps).Perm (ps.map Prod.snd) ∧
    (FetchTelegram.write_posts_list ps).Pairwise (fun a b => b.id < a.id) := by
  have hpermA := sortAscById_perm (ps.map Prod.snd)
  have hpermD := sortDescById_perm (ps.map Prod.snd)
  refine ⟨hpermA, ?_, hpermD, ?_⟩
  · refine pairwise_strict_of_le_nodup _ (sortAscById_sorted _) ?_
    exact ((hpermA.map Post.id).nodup_iff).mpr hids
  · refine pairwise_strict_of_ge_nodup _ (sortDescById_sorted _) ?_
    exact ((hpermD.map Post.id).nodup_iff).mpr hids

/-- Witness for C8: evaluating both writers on the concrete two-post store. -/
theorem write_posts_order_spec_witness :
    (Storage.write_posts_list cexMap).Perm (cexMap.map Prod.snd) ∧
    (Storage.write_posts_list cexMap).Pairwise (fun a b => a.id < b.id) ∧
    (FetchTelegram.write_posts_list cexMap).Perm (cexMap.map Prod.snd) ∧
    (FetchTelegram.write_posts_list cexMap).Pairwise (fun a b => b.id < a.id) :=
  write_posts_order_spec cexMap (by decide)

end Timeforcv

namespace Timeforcv

/-- A value stored in the meta record dict written by the orchestrator. -/
inductive MetaVal where
  | s (v : Option String)
  | i (v : Int)
  | stats (newCount updatedCount mediaDownloaded : Int)
deriving DecidableEq, Repr

/-- First binding of a key in a meta record (dict get). -/
def metaGet (m : List (String × MetaVal)) (k : String) : Option MetaVal :=
  match m with
  | [] => none
  | kv :: rest => if kv.1 = k then some kv.2 else metaGet rest k

namespace FetchTelegram

/-- scripts/fetch_telegram.py run, lines 704-717: the meta dict assembled at
the end of a successful sync run (title, username, channel, last_sync_utc,
posts_count, stats, plus avatar when one was downloaded). -/
def build_meta (channel_title channel_username : Option String)
    (channel last_sync_utc : String) (posts_count : Int)
    (new_count updated_count downloaded : Int) (avatar_rel : Option String) :
    List (String × MetaVal) :=
  [("title", .s channel_title),
   ("username", .s channel_username),
   ("channel", .s (some channel)),
   ("last_sync_utc", .s (some last_sync_utc)),
   ("posts_count", .i posts_count),
   ("stats", .stats new_count updated_count downloaded)] ++
  (match avatar_rel with
   | some a => [("avatar", .s (some a))]
   | none => [])

/-- dict.setdefault: append the pair only when the key is absent. -/
def setdefault (m : List (String × MetaVal)) (k : String) (v : MetaVal) :
    List (String × MetaVal) :=
  if (m.map Prod.fst).contains k then m else m ++ [(k, v)]

/-- scripts/fetch_telegram.py write_meta, lines 403-406: the record finally
serialized into docs/data/meta.json (meta plus defaulted schema versions). -/
def write_meta_record (meta : List (String × MetaVal)) :
    List (String × MetaVal) :=
  setdefault (setdefault meta "meta_schema_version" (.s (some "1.0.0")))
    "posts_schema_version" (.s (some "1.0.0"))

/-- scripts/fetch_telegram.py run, line 598: the resume point of a sync run,
last_id = max(posts_by_id.keys()) if posts_by_id else 0. -/
def last_id (posts_by_id : PostMap) : Int :=
  match posts_by_id.map Prod.fst with
  | [] => 0
  | k :: ks => ks.foldl max k

end FetchTelegram

theorem foldl_max_le (init : Int) (l : List Int) :
    init ≤ l.foldl max init ∧ ∀ x ∈ l, x ≤ l.foldl max init := by
  induction l generalizing init with
  | nil => simp
  | cons y ys ih =>
    rcases ih (max init y) with ⟨h1, h2⟩
    refine ⟨le_trans (le_max_left _ _) h1, ?_⟩
    intro x hx
    rcases List.mem_cons.mp hx with hx | hx
    · subst hx; exact le_trans (le_max_right _ _) h1
    · exact h2 x hx

theorem foldl_max_mem (init : Int) (l : List Int) :
    l.foldl max init ∈ init :: l := by
  induction l generalizing init with
  | nil => simp
  | cons y ys ih =>
    simp only [List.foldl_cons]
    rcases List.mem_cons.mp (ih (max init y)) with h | h
    · rcases max_choice init y with hm | hm
      · rw [h, hm]; exact List.mem_cons_self _ _
      · rw [h, hm]; exact List.mem_cons_of_mem _ (List.mem_cons_self _ _)
    · exact List.mem_cons_of_mem _ (List.mem_cons_of_mem _ h)

/-- C2 counterexample: on a concrete successful run over the two-post store,
the meta record written by the orchestrator carries no watermark at all: it
has no last_seen_message_id entry (its keys are exactly title, username,
channel, last_sync_utc, posts_count, stats and the two schema versions), so
no recorded watermark can equal the maximum observed id; and the resume point
is computed from the store alone (last_id = 2 here), not from meta. -/
theorem run_meta_watermark_counterexample :
    metaGet
      (FetchTelegram.write_meta_record
        (FetchTelegram.build_meta (some "Chan") (some "chan") "chan"
          "2024-01-01T00:00:00Z" 2 1 0 0 none))
      "last_seen_message_id" = none ∧
    (FetchTelegram.write_meta_record
        (FetchTelegram.build_meta (some "Chan") (some "chan") "chan"
          "2024-01-01T00:00:00Z" 2 1 0 0 none)).map Prod.fst =
      ["title", "username", "channel", "last_sync_utc", "posts_count",
       "stats", "meta_schema_version", "posts_schema_version"] ∧
    FetchTelegram.last_id cexMap = 2 := by
  refine ⟨rfl, rfl, rfl⟩

/-- C2 amended: the orchestrator records no watermark in the meta record
(for every possible successful-run meta, the last_seen_message_id key is
absent), and the next run resumes from the highest id present in the store:
last_id is an upper bound of the store keys, is itself a store key when the
store is nonempty, and is 0 on an empty store. -/
theorem run_resume_and_meta_spec :
    (∀ (t u : Option String) (c lsu : String) (pc n up dl : Int)
        (av : Option String),
      metaGet
        (FetchTelegram.write_meta_record
          (FetchTelegram.build_meta t u c lsu pc n up dl av))
        "last_seen_message_id" = none) ∧
    (∀ ps : PostMap, ∀ kp ∈ ps, kp.1 ≤ FetchTelegram.last_id ps) ∧
    (∀ ps : PostMap, ps ≠ [] →
      FetchTelegram.last_id ps ∈ ps.map Prod.fst) ∧
    FetchTelegram.last_id ([] : PostMap) = 0 := by
  refine ⟨?_, ?_, ?_, rfl⟩
  · intro t u c lsu pc n up dl av
    cases av <;>
      simp [FetchTelegram.build_meta, FetchTelegram.write_meta_record,
        FetchTelegram.setdefault, metaGet]
  · intro ps kp hkp
    unfold FetchTelegram.last_id
    have hmem : kp.1 ∈ ps.map Prod.fst := List.mem_map_of_mem Prod.fst hkp
    cases hk : ps.map Prod.fst with
    | nil => rw [hk] at hmem; cases hmem
    | cons k ks =>
      rw [hk] at hmem
      rcases List.mem_cons.mp hmem with h | h
      · subst h; exact (foldl_max_le kp.1 ks).1
      · exact (foldl_max_le k ks).2 kp.1 h
  · intro ps hne
    unfold FetchTelegram.last_id
    cases hk : ps.map Prod.fst with
    | nil =>
      exact absurd (List.map_eq_nil_iff.mp hk) hne
    | cons k ks =>
      exact foldl_max_mem k ks

/-- Witness for C2: the resume point of the concrete two-post store is an
upper bound of its keys, is one of its keys, and equals 2. -/
theorem run_resume_and_meta_spec_witness :
    (∀ kp ∈ cexMap, kp.1 ≤ FetchTelegram.last_id cexMap) ∧
    FetchTelegram.last_id cexMap ∈ cexMap.map Prod.fst :=
  ⟨run_resume_and_meta_spec.2.1 cexMap,
   run_resume_and_meta_spec.2.2.1 cexMap (by decide)⟩

end Timeforcv

namespace Timeforcv

/-- The on-disk state relevant to the store writer: each path maps to the
byte content of the file there, none when absent.  Content is compared and
stored as the UTF-8 decoded payload string; data.encode("utf-8") is
injective, so byte equality on disk is string equality here. -/
def FileSystem : Type := String → Option String

namespace Storage

/-- path.with_suffix(path.suffix + ".tmp") for the store paths (posts.json,
meta.json, config.json, page-N.json): appends ".tmp". -/
def tmp_path (path : String) : String := path ++ ".tmp"

/-- scripts/storage.py _write_if_changed, lines 32-46: if the target exists
with byte-identical content, report False (unchanged) without writing;
otherwise write the payload to the temp path and atomically rename it onto
the target, reporting True.  (The try/except around the read only matters
when the read raises, which the total model cannot.) -/
def write_if_changed (fs : FileSystem) (path : String) (data : String) :
    Bool × FileSystem :=
  match fs path with
  | some current =>
    if current = data then
      (false, fs)
    else
      (true, fun q =>
        if q = path then some data
        else if q = tmp_path path then none else fs q)
  | none =>
    (true, fun q =>
      if q = path then some data
      else if q = tmp_path path then none else fs q)

end Storage

/-- C7: when the file at the target path exists with bytes identical to the
encoded payload, the store writer returns False (unchanged) and performs no
write, leaving the whole filesystem untouched; hence a second invocation
with the same serialized content, after any first invocation, is a no-op. -/
theorem write_if_changed_unchanged_spec :
    (∀ (fs : FileSystem) (path data : String), fs path = some data →
      Storage.write_if_changed fs path data = (false, fs)) ∧
    (∀ (fs : FileSystem) (path data : String),
      ((Storage.write_if_changed fs path data).2) path = some data ∧
      Storage.write_if_changed
        ((Storage.write_if_changed fs path data).2) path data =
        (false, (Storage.write_if_changed fs path data).2)) := by
  have hbase : ∀ (fs : FileSystem) (path data : String),
      fs path = some data →
      Storage.write_if_changed fs path data = (false, fs) := by
    intro fs path data h
    unfold Storage.write_if_changed
    rw [h]
    simp
  refine ⟨hbase, ?_⟩
  intro fs path data
  have hafter : ((Storage.write_if_changed fs path data).2) path = some data := by
    unfold Storage.write_if_changed
    cases hc : fs path with
    | none => simp
    | some current =>
      by_cases he : current = data
      · simp [he, hc]
      · simp [he, hc]
  exact ⟨hafter, hbase _ path data hafter⟩

/-- A concrete one-file filesystem used by the C7 witness. -/
def wFs : FileSystem :=
  fun q => if q = "docs/data/posts.json" then some "[]\n" else none

/-- Witness for C7: rewriting byte-identical content at a concrete path of a
concrete filesystem reports unchanged and leaves it untouched. -/
theorem write_if_changed_unchanged_spec_witness :
    Storage.write_if_changed wFs "docs/data/posts.json" "[]\n" =
      (false, wFs) :=
  write_if_changed_unchanged_spec.1 wFs "docs/data/posts.json" "[]\n" rfl

end Timeforcv

namespace Timeforcv

/-- Python truthiness of post.get("grouped_id") in the classification loop of
merge_albums: the group key int(group_id) when present and nonzero, none for
an absent, null or 0 grouping key. -/
def truthyGid (p : Post) : Option Int :=
  match p.grouped_id with
  | some g => if g = 0 then none else some g
  | none => none

/-- grouped_posts.setdefault(int(group_id), []).append(post): append the post
to the bucket of its group key, creating the bucket at the end of the dict on
first encounter. -/
def addToGroup (gs : List (Int × List Post)) (g : Int) (p : Post) :
    List (Int × List Post) :=
  match gs with
  | [] => [(g, [p])]
  | gb :: rest =>
    if gb.1 = g then (gb.1, gb.2 ++ [p]) :: rest
    else gb :: addToGroup rest g p

/-- One iteration of the classification loop shared by both merge_albums
implementations (scripts/post_merge.py lines 12-17, scripts/fetch_telegram.py
lines 544-550): a truthy grouped_id goes to its group bucket, anything else
stays in the ungrouped dict. -/
def partitionStep (acc : List (Int × List Post) × PostMap) (kp : Int × Post) :
    List (Int × List Post) × PostMap :=
  match truthyGid kp.2 with
  | some g => (addToGroup acc.1 g kp.2, acc.2)
  | none => (acc.1, acc.2 ++ [kp])

/-- The classification loop over posts_by_id.items(). -/
def partitionPosts (posts_by_id : PostMap) : List (Int × List Post) × PostMap :=
  posts_by_id.foldl partitionStep ([], [])

/-- The text/html selection loop shared by both merge_albums implementations:
starting from the base values, fill text and html independently with the
first truthy value in the sorted group, stopping once both are nonempty. -/
def scanTextHtml (t h : String) : List Post → String × String
  | [] => (t, h)
  | p :: rest =>
    let t1 := if t = "" ∧ (p.text).getD "" ≠ "" then (p.text).getD "" else t
    let h1 := if h = "" ∧ (p.html).getD "" ≠ "" then (p.html).getD "" else h
    if t1 ≠ "" ∧ h1 ≠ "" then (t1, h1) else scanTextHtml t1 h1 rest

/-- text = base.get("text") or ""; html likewise; the scan loop runs only
when one of them is still empty. -/
def select_text_html (base : Post) (sorted_group : List Post) : String × String :=
  let t := (base.text).getD ""
  let h := (base.html).getD ""
  if t = "" ∨ h = "" then scanTextHtml t h sorted_group else (t, h)

/-- merged_posts[base_post_id] = base_post: Python dict assignment replaces
the value in place when the key exists and appends otherwise. -/
def dictInsert (m : PostMap) (k : Int) (v : Post) : PostMap :=
  if k ∈ dictKeys m then m.map (fun kv => if kv.1 = k then (k, v) else kv)
  else m ++ [(k, v)]

/-- The common skeleton of both merge_albums implementations: classify, then
fold the per-group merge over the group dict, starting from the ungrouped
dict.  The two sources differ only in the per-group body. -/
def merge_albums_with (mg : Int → List Post → Option (Int × Post))
    (posts_by_id : PostMap) : PostMap :=
  let parts := partitionPosts posts_by_id
  parts.1.foldl
    (fun merged gb =>
      match mg gb.1 gb.2 with
      | some kv => dictInsert merged kv.1 kv.2
      | none => merged)
    parts.2

namespace PostMerge

/-- scripts/post_merge.py _media_dedupe_key. -/
def media_dedupe_key (m : MediaItem) :
    Option String × Option String × Option String :=
  (m.path, m.kind, m.mime)

/-- The media-collection loop of scripts/post_merge.py merge_albums, lines
37-46: walk the (already flattened, ascending-id ordered) media of the group
and keep only the first item for each (path, kind, mime) key.  The isinstance
dict check of the source cannot fail in the typed model. -/
def dedupeMedia (seen : List (Option String × Option String × Option String)) :
    List MediaItem → List MediaItem
  | [] => []
  | m :: rest =>
    if media_dedupe_key m ∈ seen then dedupeMedia seen rest
    else m :: dedupeMedia (media_dedupe_key m :: seen) rest

/-- The per-group body of scripts/post_merge.py merge_albums, lines 22-74:
sort the group ascending by id, take the first member as the base, combine
the members' media with deduplication, resolve text/html, restamp grouped_id
and the (already int) id, and reinsert under the base id.  An empty group is
skipped; the int coercion guards on the base id always succeed in the typed
model. -/
def merge_group (group_id : Int) (group_posts : List Post) :
    Option (Int × Post) :=
  match sortAscById group_posts with
  | [] => none
  | base :: rest =>
    let sorted_group := base :: rest
    let merged_media :=
      dedupeMedia [] (sorted_group.flatMap (fun p => (p.media).getD []))
    let th := select_text_html base sorted_group
    some (base.id,
      { base with media := some merged_media, text := some th.1,
                  html := some th.2, grouped_id := some group_id })

/-- scripts/post_merge.py merge_albums, lines 8-75. -/
def merge_albums (posts_by_id : PostMap) : PostMap :=
  merge_albums_with merge_group posts_by_id

end PostMerge

namespace FetchTelegram

/-- The per-group body of scripts/fetch_telegram.py merge_albums, lines
552-585: identical to the modular one except that the members' media lists
are concatenated without any deduplication (it.get("media") truthy check:
an absent or empty list contributes nothing either way). -/
def merge_group (gid : Int) (items : List Post) : Option (Int × Post) :=
  match sortAscById items with
  | [] => none
  | base :: rest =>
    let items_sorted := base :: rest
    let combined_media := items_sorted.flatMap (fun p => (p.media).getD [])
    let th := select_text_html base items_sorted
    some (base.id,
      { base with media := some combined_media, text := some th.1,
                  html := some th.2, grouped_id := some gid })

/-- scripts/fetch_telegram.py merge_albums, lines 540-587. -/
def merge_albums (posts_by_id : PostMap) : PostMap :=
  merge_albums_with merge_group posts_by_id

end FetchTelegram

/-- The input posts carrying grouping key g, in input order (the members of
group g collected by the classification loop). -/
def groupMembers (ps : PostMap) (g : Int) : List Post :=
  (ps.filter (fun kp => truthyGid kp.2 == some g)).map Prod.snd

/-- The group members in ascending-id order. -/
def ascMembers (ps : PostMap) (g : Int) : List Post :=
  sortAscById (groupMembers ps g)

/-- The concatenation of the group members' media in ascending-id order. -/
def groupMediaAsc (ps : PostMap) (g : Int) : List MediaItem :=
  (ascMembers ps g).flatMap (fun p => (p.media).getD [])

/-- The first nonempty value of a string field when scanning a list of posts,
empty when there is none (how the claim describes text/html resolution). -/
def firstTruthy (f : Post → Option String) (l : List Post) : String :=
  match l.find? (fun p => (f p).getD "" != "") with
  | some p => (f p).getD ""
  | none => ""

end Timeforcv

namespace Timeforcv

/-- First binding of a group key in the grouped-posts dict. -/
def groupGet (gs : List (Int × List Post)) (g : Int) : Option (List Post) :=
  match gs with
  | [] => none
  | gb :: rest => if gb.1 = g then some gb.2 else groupGet rest g

theorem groupGet_addToGroup_same (gs : List (Int × List Post)) (g : Int)
    (p : Post) :
    groupGet (addToGroup gs g p) g = some ((groupGet gs g).getD [] ++ [p]) := by
  induction gs with
  | nil => simp [addToGroup, groupGet]
  | cons gb rest ih =>
    by_cases h : gb.1 = g
    · simp [addToGroup, groupGet, h]
    · simp [addToGroup, groupGet, h, ih]

theorem groupGet_addToGroup_other (gs : List (Int × List Post)) (g g2 : Int)
    (p : Post) (hne : g2 ≠ g) :
    groupGet (addToGroup gs g p) g2 = groupGet gs g2 := by
  have hgg : ¬ g = g2 := fun h => hne h.symm
  induction gs with
  | nil => simp [addToGroup, groupGet, hgg]
  | cons gb rest ih =>
    by_cases h : gb.1 = g
    · simp [addToGroup, groupGet, h, hgg]
    · by_cases h3 : gb.1 = g2
      · simp [addToGroup, groupGet, h, h3, hne]
      · simp [addToGroup, groupGet, h, h3, ih]

theorem addToGroup_keys (gs : List (Int × List Post)) (g : Int) (p : Post) :
    (addToGroup gs g p).map Prod.fst =
      if g ∈ gs.map Prod.fst then gs.map Prod.fst
      else gs.map Prod.fst ++ [g] := by
  induction gs with
  | nil => simp [addToGroup]
  | cons gb rest ih =>
    by_cases h : gb.1 = g
    · simp [addToGroup, h]
    · have h2 : ¬ g = gb.1 := fun h3 => h h3.symm
      by_cases hm : g ∈ rest.map Prod.fst
      · simp [addToGroup, h, ih, hm, h2]
      · simp [addToGroup, h, ih, hm, h2]

theorem addToGroup_keys_nodup (gs : List (Int × List Post)) (g : Int) (p : Post)
    (h : (gs.map Prod.fst).Nodup) :
    ((addToGroup gs g p).map Prod.fst).Nodup := by
  rw [addToGroup_keys]
  by_cases hm : g ∈ gs.map Prod.fst
  · simpa [hm] using h
  · rw [if_neg hm]
    refine List.Nodup.append h (List.nodup_singleton g) ?_
    intro a ha hag
    rw [List.mem_singleton] at hag
    subst hag
    exact hm ha

/-- The group members of g among a list of dict items, in encounter order. -/
def membersOf (l : PostMap) (g : Int) : List Post :=
  (l.filter (fun kp => truthyGid kp.2 == some g)).map Prod.snd

theorem groupMembers_eq_membersOf (ps : PostMap) (g : Int) :
    groupMembers ps g = membersOf ps g := rfl

theorem partition_foldl_snd (l : PostMap)
    (gs : List (Int × List Post)) (ug : PostMap) :
    (l.foldl partitionStep (gs, ug)).2 =
      ug ++ l.filter (fun kp => (truthyGid kp.2).isNone) := by
  induction l generalizing gs ug with
  | nil => simp
  | cons kp rest ih =>
    simp only [List.foldl_cons]
    cases hg : truthyGid kp.2 with
    | none =>
      simp only [partitionStep, hg]
      rw [ih]
      simp [hg]
    | some g =>
      simp only [partitionStep, hg]
      rw [ih]
      simp [hg]

theorem partition_foldl_fst_get (l : PostMap) (g : Int)
    (gs : List (Int × List Post)) (ug : PostMap) :
    groupGet (l.foldl partitionStep (gs, ug)).1 g =
      match groupGet gs g with
      | some b => some (b ++ membersOf l g)
      | none => if membersOf l g = [] then none else some (membersOf l g) := by
  induction l generalizing gs ug with
  | nil =>
    simp only [List.foldl_nil]
    cases h : groupGet gs g <;> simp [membersOf, h]
  | cons kp rest ih =>
    simp only [List.foldl_cons]
    cases hg : truthyGid kp.2 with
    | none =>
      simp only [partitionStep, hg]
      rw [ih]
      have hfil : membersOf (kp :: rest) g = membersOf rest g := by
        simp [membersOf, List.filter_cons, hg]
      rw [hfil]
    | some g2 =>
      simp only [partitionStep, hg]
      rw [ih]
      by_cases hgg : g2 = g
      · subst hgg
        have hfil : membersOf (kp :: rest) g2 = kp.2 :: membersOf rest g2 := by
          simp [membersOf, List.filter_cons, hg]
        rw [hfil, groupGet_addToGroup_same]
        cases hb : groupGet gs g2 with
        | none => simp
        | some b => simp
      · have hne : g ≠ g2 := fun h => hgg h.symm
        rw [groupGet_addToGroup_other gs g2 g kp.2 hne]
        have hfil : membersOf (kp :: rest) g = membersOf rest g := by
          have : (truthyGid kp.2 == some g) = false := by
            simp [hg, hgg]
          simp [membersOf, List.filter_cons, this]
        rw [hfil]

theorem partition_foldl_keys_nodup (l : PostMap)
    (gs : List (Int × List Post)) (ug : PostMap)
    (h : (gs.map Prod.fst).Nodup) :
    (((l.foldl partitionStep (gs, ug)).1).map Prod.fst).Nodup := by
  induction l generalizing gs ug with
  | nil => simpa using h
  | cons kp rest ih =>
    simp only [List.foldl_cons]
    cases hg : truthyGid kp.2 with
    | none =>
      simp only [partitionStep, hg]
      exact ih gs _ h
    | some g =>
      simp only [partitionStep, hg]
      exact ih _ ug (addToGroup_keys_nodup gs g kp.2 h)

theorem partitionPosts_snd (ps : PostMap) :
    (partitionPosts ps).2 = ps.filter (fun kp => (truthyGid kp.2).isNone) := by
  simpa using partition_foldl_snd ps [] []

theorem partitionPosts_get (ps : PostMap) (g : Int) :
    groupGet (partitionPosts ps).1 g =
      if groupMembers ps g = [] then none else some (groupMembers ps g) := by
  have h := partition_foldl_fst_get ps g [] []
  simpa [partitionPosts, groupGet, groupMembers_eq_membersOf] using h

theorem partitionPosts_keys_nodup (ps : PostMap) :
    (((partitionPosts ps).1).map Prod.fst).Nodup := by
  simpa using partition_foldl_keys_nodup ps [] [] (by simp)

end Timeforcv

namespace Timeforcv

theorem dictGet_append (l1 l2 : PostMap) (k : Int) :
    dictGet (l1 ++ l2) k =
      match dictGet l1 k with
      | some v => some v
      | none => dictGet l2 k := by
  induction l1 with
  | nil => simp [dictGet]
  | cons kp rest ih =>
    by_cases h : kp.1 = k
    · simp [dictGet, h]
    · simp [dictGet, h, ih]

theorem dictGet_eq_none_iff (l : PostMap) (k : Int) :
    dictGet l k = none ↔ k ∉ dictKeys l := by
  induction l with
  | nil => simp [dictGet, dictKeys]
  | cons kp rest ih =>
    by_cases h : kp.1 = k
    · simp [dictGet, dictKeys, h]
    · simp only [dictGet, dictKeys, List.map_cons, List.mem_cons, if_neg h]
      rw [ih]
      constructor
      · intro hk hor
        rcases hor with hor | hor
        · exact h hor.symm
        · exact hk hor
      · intro hk hm
        exact hk (Or.inr hm)

theorem dictGet_of_mem (l : PostMap) (k : Int) (v : Post)
    (hn : (dictKeys l).Nodup) (hm : (k, v) ∈ l) : dictGet l k = some v := by
  induction l with
  | nil => cases hm
  | cons kp rest ih =>
    rcases List.mem_cons.mp hm with hm | hm
    · rw [← hm]
      simp [dictGet]
    · have hk : k ∈ dictKeys rest :=
        List.mem_map_of_mem Prod.fst hm
      have hne : kp.1 ≠ k := by
        intro he
        have := (List.nodup_cons.mp hn).1
        rw [he] at this
        exact this hk
      simp only [dictGet, if_neg hne]
      exact ih (List.nodup_cons.mp hn).2 hm

theorem dictKeys_unique (l : PostMap) (hn : (dictKeys l).Nodup) {k : Int}
    {a b : Post} (ha : (k, a) ∈ l) (hb : (k, b) ∈ l) : a = b := by
  have h1 := dictGet_of_mem l k a hn ha
  have h2 := dictGet_of_mem l k b hn hb
  rw [h1] at h2
  exact Option.some_inj.mp h2

theorem dictInsert_not_mem (m : PostMap) (k : Int) (v : Post)
    (h : k ∉ dictKeys m) : dictInsert m k v = m ++ [(k, v)] := by
  simp [dictInsert, h]

theorem foldl_mergeGroups_append (mg : Int → List Post → Option (Int × Post))
    (gs : List (Int × List Post)) (acc : PostMap)
    (hfresh : ∀ gb ∈ gs, ∀ kv, mg gb.1 gb.2 = some kv → kv.1 ∉ dictKeys acc)
    (hpair : gs.Pairwise (fun a b => ∀ kva kvb, mg a.1 a.2 = some kva →
      mg b.1 b.2 = some kvb → kva.1 ≠ kvb.1)) :
    gs.foldl (fun merged gb =>
      match mg gb.1 gb.2 with
      | some kv => dictInsert merged kv.1 kv.2
      | none => merged) acc
    = acc ++ gs.filterMap (fun gb => mg gb.1 gb.2) := by
  induction gs generalizing acc with
  | nil => simp
  | cons gb rest ih =>
    rcases List.pairwise_cons.mp hpair with ⟨hgb, hrest⟩
    simp only [List.foldl_cons, List.filterMap_cons]
    cases hmg : mg gb.1 gb.2 with
    | none =>
      simp only [hmg]
      exact ih acc (fun b hb => hfresh b (List.mem_cons_of_mem gb hb)) hrest
    | some kv =>
      simp only [hmg]
      have hk : kv.1 ∉ dictKeys acc := hfresh gb (List.mem_cons_self gb rest) kv hmg
      rw [dictInsert_not_mem acc kv.1 kv.2 hk]
      have hfresh2 : ∀ b ∈ rest, ∀ kvb, mg b.1 b.2 = some kvb →
          kvb.1 ∉ dictKeys (acc ++ [(kv.1, kv.2)]) := by
        intro b hb kvb hkvb
        have h1 : kvb.1 ∉ dictKeys acc := hfresh b (List.mem_cons_of_mem gb hb) kvb hkvb
        have h2 : kvb.1 ≠ kv.1 := (hgb b hb kv kvb hmg hkvb).symm
        intro hmem
        rw [dictKeys, List.map_append] at hmem
        rcases List.mem_append.mp hmem with hm | hm
        · exact h1 hm
        · simp only [List.map_cons, List.map_nil, List.mem_singleton] at hm
          exact h2 hm
      rw [ih (acc ++ [(kv.1, kv.2)]) hfresh2 hrest, List.append_assoc]
      simp

theorem groupGet_of_mem (gs : List (Int × List Post))
    (hn : (gs.map Prod.fst).Nodup) (gb : Int × List Post) (hm : gb ∈ gs) :
    groupGet gs gb.1 = some gb.2 := by
  induction gs with
  | nil => cases hm
  | cons x rest ih =>
    rcases List.mem_cons.mp hm with hm | hm
    · subst hm
      simp [groupGet]
    · have hk : gb.1 ∈ rest.map Prod.fst := List.mem_map_of_mem Prod.fst hm
      have hne : x.1 ≠ gb.1 := by
        intro he
        have := (List.nodup_cons.mp hn).1
        rw [he] at this
        exact this hk
      simp only [groupGet, if_neg hne]
      exact ih (List.nodup_cons.mp hn).2 hm

/-- Every bucket of the classification is exactly the (nonempty) member list
of its group key. -/
theorem partitionPosts_mem_bucket (ps : PostMap) (gb : Int × List Post)
    (hm : gb ∈ (partitionPosts ps).1) :
    gb.2 = groupMembers ps gb.1 ∧ gb.2 ≠ [] := by
  have h1 := groupGet_of_mem (partitionPosts ps).1 (partitionPosts_keys_nodup ps) gb hm
  rw [partitionPosts_get] at h1
  by_cases he : groupMembers ps gb.1 = []
  · rw [if_pos he] at h1
    cases h1
  · rw [if_neg he] at h1
    exact ⟨(Option.some_inj.mp h1.symm), by
      intro h2
      rw [h2] at h1
      exact he (Option.some_inj.mp h1.symm).symm⟩

/-- A member of group g is stored in the dict under its own id and really
carries grouping key g. -/
theorem mem_of_groupMembers (ps : PostMap)
    (hid : ∀ kp ∈ ps, kp.2.id = kp.1) (g : Int) (p : Post)
    (hp : p ∈ groupMembers ps g) :
    (p.id, p) ∈ ps ∧ truthyGid p = some g := by
  rcases List.mem_map.mp hp with ⟨kp, hkp, hsnd⟩
  have hfil := List.mem_filter.mp hkp
  have hkey : kp.2.id = kp.1 := hid kp hfil.1
  have hgid : truthyGid kp.2 = some g := by
    have := hfil.2
    simpa using this
  have : kp = (p.id, p) := by
    cases kp with
    | mk k q =>
      simp only at hsnd
      subst hsnd
      simp only at hkey
      rw [← hkey]
  rw [this] at hfil
  exact ⟨hfil.1, by rw [← hsnd]; exact hgid⟩

/-- Two group members (of possibly different groups) with the same id are the
same post, and then their groups coincide. -/
theorem groupMembers_id_inj (ps : PostMap)
    (hkeys : (dictKeys ps).Nodup) (hid : ∀ kp ∈ ps, kp.2.id = kp.1)
    (g g2 : Int) (p q : Post) (hp : p ∈ groupMembers ps g)
    (hq : q ∈ groupMembers ps g2) (h : p.id = q.id) : p = q ∧ g = g2 := by
  rcases mem_of_groupMembers ps hid g p hp with ⟨hpin, hpg⟩
  rcases mem_of_groupMembers ps hid g2 q hq with ⟨hqin, hqg⟩
  rw [h] at hpin
  have hpq : p = q := dictKeys_unique ps hkeys hpin hqin
  refine ⟨hpq, ?_⟩
  rw [hpq] at hpg
  rw [hpg] at hqg
  exact Option.some_inj.mp hqg

end Timeforcv

namespace Timeforcv

theorem sortAscById_head_mem (l : List Post) (base : Post) (rest : List Post)
    (h : sortAscById l = base :: rest) : base ∈ l := by
  have hm : base ∈ sortAscById l := by
    rw [h]
    exact List.mem_cons_self base rest
  exact (sortAscById_perm l).mem_iff.mp hm

theorem sortAscById_head_min (l : List Post) (base : Post) (rest : List Post)
    (h : sortAscById l = base :: rest) : ∀ q ∈ l, base.id ≤ q.id := by
  intro q hq
  have hq2 : q ∈ base :: rest := by
    rw [← h]
    exact (sortAscById_perm l).symm.mem_iff.mp hq
  rcases List.mem_cons.mp hq2 with hq2 | hq2
  · rw [hq2]
  · have hs := sortAscById_sorted l
    rw [h] at hs
    exact (List.pairwise_cons.mp hs).1 q hq2

theorem sortAscById_ne_nil (l : List Post) (h : l ≠ []) :
    ∃ base rest, sortAscById l = base :: rest := by
  cases hs : sortAscById l with
  | nil =>
    exfalso
    apply h
    have := (sortAscById_perm l).length_eq
    rw [hs] at this
    exact List.length_eq_zero.mp this.symm
  | cons base rest => exact ⟨base, rest, rfl⟩

theorem groupGet_mem (gs : List (Int × List Post)) (g : Int) (b : List Post)
    (h : groupGet gs g = some b) : (g, b) ∈ gs := by
  induction gs with
  | nil => cases h
  | cons x rest ih =>
    by_cases hx : x.1 = g
    · simp only [groupGet, if_pos hx] at h
      have hb : b = x.2 := (Option.some_inj.mp h).symm
      rw [List.mem_cons]
      left
      rw [hb, ← hx]
    · simp only [groupGet, if_neg hx] at h
      exact List.mem_cons_of_mem x (ih h)

/-- truthyGid never reports the group key 0. -/
theorem truthyGid_ne_zero (p : Post) (g : Int) (h : truthyGid p = some g) :
    g ≠ 0 := by
  unfold truthyGid at h
  cases hp : p.grouped_id with
  | none => rw [hp] at h; cases h
  | some g2 =>
    rw [hp] at h
    change (if g2 = 0 then none else some g2) = some g at h
    by_cases hz : g2 = 0
    · rw [if_pos hz] at h; cases h
    · rw [if_neg hz] at h
      rw [← Option.some_inj.mp h]
      exact hz

/-- A grouped member's id is never a key of the ungrouped part. -/
theorem groupMember_id_not_ungrouped (ps : PostMap)
    (hkeys : (dictKeys ps).Nodup) (hid : ∀ kp ∈ ps, kp.2.id = kp.1)
    (g : Int) (p : Post) (hp : p ∈ groupMembers ps g) :
    p.id ∉ dictKeys (partitionPosts ps).2 := by
  rcases mem_of_groupMembers ps hid g p hp with ⟨hin, hgid⟩
  intro hmem
  rw [partitionPosts_snd] at hmem
  rcases List.mem_map.mp hmem with ⟨kp, hkp, hfst⟩
  have hfil := List.mem_filter.mp hkp
  have hkp2 : (p.id, kp.2) ∈ ps := by
    cases kp with
    | mk k q =>
      simp only at hfst
      rw [← hfst]
      exact hfil.1
  have heq : kp.2 = p := dictKeys_unique ps hkeys hkp2 hin
  have hnone := hfil.2
  rw [heq] at hnone
  rw [hgid] at hnone
  simp at hnone

/-- The common structure theorem: under the dict and key invariants, and for
any per-group body that keys its result by the head of the ascending-sorted
bucket, the merged dict is the ungrouped entries followed by one merged entry
per group, with no key collisions. -/
theorem merge_albums_with_eq (mg : Int → List Post → Option (Int × Post))
    (ps : PostMap)
    (hkeys : (dictKeys ps).Nodup) (hid : ∀ kp ∈ ps, kp.2.id = kp.1)
    (hmgkey : ∀ g members kv, mg g members = some kv →
      ∃ base rest, sortAscById members = base :: rest ∧ kv.1 = base.id) :
    merge_albums_with mg ps =
      (partitionPosts ps).2 ++
        (partitionPosts ps).1.filterMap (fun gb => mg gb.1 gb.2) := by
  unfold merge_albums_with
  apply foldl_mergeGroups_append
  · intro gb hgb kv hkv
    rcases hmgkey gb.1 gb.2 kv hkv with ⟨base, rest, hsort, hkvid⟩
    rcases partitionPosts_mem_bucket ps gb hgb with ⟨hbucket, hne⟩
    have hbase_mem : base ∈ groupMembers ps gb.1 := by
      rw [← hbucket]
      exact sortAscById_head_mem gb.2 base rest hsort
    rw [hkvid]
    exact groupMember_id_not_ungrouped ps hkeys hid gb.1 base hbase_mem
  · have hnd := partitionPosts_keys_nodup ps
    have hpw : (partitionPosts ps).1.Pairwise (fun a b => a.1 ≠ b.1) :=
      List.pairwise_map.mp hnd
    refine List.Pairwise.imp_of_mem ?_ hpw
    intro a b ha hb hne kva kvb hkva hkvb
    rcases hmgkey a.1 a.2 kva hkva with ⟨basea, resta, hsorta, hkida⟩
    rcases hmgkey b.1 b.2 kvb hkvb with ⟨baseb, restb, hsortb, hkidb⟩
    rcases partitionPosts_mem_bucket ps a ha with ⟨hba, hnea⟩
    rcases partitionPosts_mem_bucket ps b hb with ⟨hbb, hneb⟩
    have hma : basea ∈ groupMembers ps a.1 := by
      rw [← hba]
      exact sortAscById_head_mem a.2 basea resta hsorta
    have hmb : baseb ∈ groupMembers ps b.1 := by
      rw [← hbb]
      exact sortAscById_head_mem b.2 baseb restb hsortb
    intro heq
    rw [hkida, hkidb] at heq
    rcases groupMembers_id_inj ps hkeys hid a.1 b.1 basea baseb hma hmb heq with
      ⟨_, hgg⟩
    exact hne hgg

end Timeforcv

namespace Timeforcv

theorem dedupeMedia_sublist
    (seen : List (Option String × Option String × Option String))
    (l : List MediaItem) : (PostMerge.dedupeMedia seen l).Sublist l := by
  induction l generalizing seen with
  | nil => simp [PostMerge.dedupeMedia]
  | cons m rest ih =>
    by_cases h : PostMerge.media_dedupe_key m ∈ seen
    · simp only [PostMerge.dedupeMedia, if_pos h]
      exact (ih seen).cons m
    · simp only [PostMerge.dedupeMedia, if_neg h]
      exact (ih _).cons₂ m

theorem dedupeMedia_keys
    (seen : List (Option String × Option String × Option String))
    (l : List MediaItem) :
    ((PostMerge.dedupeMedia seen l).map PostMerge.media_dedupe_key).Nodup ∧
    ∀ m ∈ PostMerge.dedupeMedia seen l, PostMerge.media_dedupe_key m ∉ seen := by
  induction l generalizing seen with
  | nil => simp [PostMerge.dedupeMedia]
  | cons m rest ih =>
    by_cases h : PostMerge.media_dedupe_key m ∈ seen
    · simp only [PostMerge.dedupeMedia, if_pos h]
      exact ih seen
    · simp only [PostMerge.dedupeMedia, if_neg h]
      rcases ih (PostMerge.media_dedupe_key m :: seen) with ⟨hnd, hout⟩
      refine ⟨?_, ?_⟩
      · rw [List.map_cons, List.nodup_cons]
        refine ⟨?_, hnd⟩
        intro hmem
        rcases List.mem_map.mp hmem with ⟨m2, hm2, hkey⟩
        exact hout m2 hm2 (by rw [hkey]; exact List.mem_cons_self _ _)
      · intro m2 hm2
        rcases List.mem_cons.mp hm2 with hm2 | hm2
        · rw [hm2]
          exact h
        · intro hs
          exact hout m2 hm2 (List.mem_cons_of_mem _ hs)

theorem dedupeMedia_covers
    (seen : List (Option String × Option String × Option String))
    (l : List MediaItem) :
    ∀ it ∈ l, PostMerge.media_dedupe_key it ∈ seen ∨
      ∃ it2 ∈ PostMerge.dedupeMedia seen l,
        PostMerge.media_dedupe_key it2 = PostMerge.media_dedupe_key it := by
  induction l generalizing seen with
  | nil => intro it h; cases h
  | cons m rest ih =>
    intro it hit
    by_cases h : PostMerge.media_dedupe_key m ∈ seen
    · simp only [PostMerge.dedupeMedia, if_pos h]
      rcases List.mem_cons.mp hit with hit | hit
      · left
        rw [hit]
        exact h
      · exact ih seen it hit
    · simp only [PostMerge.dedupeMedia, if_neg h]
      rcases List.mem_cons.mp hit with hit | hit
      · right
        exact ⟨m, List.mem_cons_self _ _, by rw [hit]⟩
      · rcases ih (PostMerge.media_dedupe_key m :: seen) it hit with hin | ⟨it2, hit2, hk⟩
        · rcases List.mem_cons.mp hin with hin | hin
          · right
            exact ⟨m, List.mem_cons_self _ _, hin.symm⟩
          · left
            exact hin
        · right
          exact ⟨it2, List.mem_cons_of_mem _ hit2, hk⟩

theorem firstTruthy_cons (f : Post → Option String) (p : Post) (l : List Post) :
    firstTruthy f (p :: l) =
      if (f p).getD "" = "" then firstTruthy f l else (f p).getD "" := by
  by_cases h : (f p).getD "" = ""
  · simp only [firstTruthy, List.find?_cons, if_pos h]
    have hb : ((f p).getD "" != "") = false := by
      simp [h]
    rw [hb]
  · simp only [firstTruthy, List.find?_cons, if_neg h]
    have hb : ((f p).getD "" != "") = true := by
      simp [h]
    rw [hb]

theorem scanTextHtml_spec (l : List Post) : ∀ t h : String,
    scanTextHtml t h l =
      ((if t = "" then firstTruthy Post.text l else t),
       (if h = "" then firstTruthy Post.html l else h)) := by
  induction l with
  | nil =>
    intro t h
    unfold scanTextHtml
    by_cases ht : t = "" <;> by_cases hh : h = "" <;>
      simp [ht, hh, firstTruthy]
  | cons p rest ih =>
    intro t h
    show (let t1 := if t = "" ∧ ((p.text).getD "" ≠ "") then (p.text).getD "" else t
          let h1 := if h = "" ∧ ((p.html).getD "" ≠ "") then (p.html).getD "" else h
          if t1 ≠ "" ∧ h1 ≠ "" then (t1, h1) else scanTextHtml t1 h1 rest) = _
    by_cases ht : t = "" <;> by_cases hp : (p.text).getD "" = "" <;>
      by_cases hh : h = "" <;> by_cases hq : (p.html).getD "" = "" <;>
      simp only [ht, hp, hh, hq, firstTruthy_cons, ih, if_pos, if_neg,
        ne_eq, not_false_eq_true, not_true_eq_false, and_true, and_false,
        true_and, false_and, if_true, if_false, ite_true, ite_false]

end Timeforcv

namespace Timeforcv

theorem select_text_html_head (base : Post) (rest : List Post) :
    select_text_html base (base :: rest) =
      (firstTruthy Post.text (base :: rest),
       firstTruthy Post.html (base :: rest)) := by
  by_cases ht : (base.text).getD "" = "" <;>
    by_cases hh : (base.html).getD "" = "" <;>
    simp [select_text_html, ht, hh, scanTextHtml_spec, firstTruthy_cons]

theorem merge_group_postmerge_some (g : Int) (members : List Post)
    (base : Post) (rest : List Post)
    (hsort : sortAscById members = base :: rest) :
    PostMerge.merge_group g members = some (base.id,
      { base with
          media := some (PostMerge.dedupeMedia []
            ((base :: rest).flatMap (fun p => (p.media).getD []))),
          text := some (firstTruthy Post.text (base :: rest)),
          html := some (firstTruthy Post.html (base :: rest)),
          grouped_id := some g }) := by
  simp [PostMerge.merge_group, hsort, select_text_html_head]

theorem merge_group_legacy_some (g : Int) (members : List Post)
    (base : Post) (rest : List Post)
    (hsort : sortAscById members = base :: rest) :
    FetchTelegram.merge_group g members = some (base.id,
      { base with
          media := some ((base :: rest).flatMap (fun p => (p.media).getD [])),
          text := some (firstTruthy Post.text (base :: rest)),
          html := some (firstTruthy Post.html (base :: rest)),
          grouped_id := some g }) := by
  simp [FetchTelegram.merge_group, hsort, select_text_html_head]

theorem merge_group_postmerge_key (g : Int) (members : List Post)
    (kv : Int × Post) (h : PostMerge.merge_group g members = some kv) :
    ∃ base rest, sortAscById members = base :: rest ∧ kv.1 = base.id := by
  cases hs : sortAscById members with
  | nil =>
    unfold PostMerge.merge_group at h
    rw [hs] at h
    cases h
  | cons base rest =>
    refine ⟨base, rest, rfl, ?_⟩
    rw [merge_group_postmerge_some g members base rest hs] at h
    exact (congrArg Prod.fst (Option.some_inj.mp h)).symm

theorem merge_group_legacy_key (g : Int) (members : List Post)
    (kv : Int × Post) (h : FetchTelegram.merge_group g members = some kv) :
    ∃ base rest, sortAscById members = base :: rest ∧ kv.1 = base.id := by
  cases hs : sortAscById members with
  | nil =>
    unfold FetchTelegram.merge_group at h
    rw [hs] at h
    cases h
  | cons base rest =>
    refine ⟨base, rest, rfl, ?_⟩
    rw [merge_group_legacy_some g members base rest hs] at h
    exact (congrArg Prod.fst (Option.some_inj.mp h)).symm

/-- The per-group results of any head-keyed body have pairwise distinct keys
across the group buckets. -/
theorem merge_pairwise_keys (mg : Int → List Post → Option (Int × Post))
    (ps : PostMap)
    (hkeys : (dictKeys ps).Nodup) (hid : ∀ kp ∈ ps, kp.2.id = kp.1)
    (hmgkey : ∀ g members kv, mg g members = some kv →
      ∃ base rest, sortAscById members = base :: rest ∧ kv.1 = base.id) :
    (partitionPosts ps).1.Pairwise (fun a b => ∀ kva kvb,
      mg a.1 a.2 = some kva → mg b.1 b.2 = some kvb → kva.1 ≠ kvb.1) := by
  have hnd := partitionPosts_keys_nodup ps
  have hpw : (partitionPosts ps).1.Pairwise (fun a b => a.1 ≠ b.1) :=
    List.pairwise_map.mp hnd
  refine List.Pairwise.imp_of_mem ?_ hpw
  intro a b ha hb hne kva kvb hkva hkvb
  rcases hmgkey a.1 a.2 kva hkva with ⟨basea, resta, hsorta, hkida⟩
  rcases hmgkey b.1 b.2 kvb hkvb with ⟨baseb, restb, hsortb, hkidb⟩
  rcases partitionPosts_mem_bucket ps a ha with ⟨hba, _⟩
  rcases partitionPosts_mem_bucket ps b hb with ⟨hbb, _⟩
  have hma : basea ∈ groupMembers ps a.1 := by
    rw [← hba]
    exact sortAscById_head_mem a.2 basea resta hsorta
  have hmb : baseb ∈ groupMembers ps b.1 := by
    rw [← hbb]
    exact sortAscById_head_mem b.2 baseb restb hsortb
  intro heq
  rw [hkida, hkidb] at heq
  rcases groupMembers_id_inj ps hkeys hid a.1 b.1 basea baseb hma hmb heq with
    ⟨_, hgg⟩
  exact hne hgg

theorem merged_keys_nodup (mg : Int → List Post → Option (Int × Post))
    (ps : PostMap)
    (hkeys : (dictKeys ps).Nodup) (hid : ∀ kp ∈ ps, kp.2.id = kp.1)
    (hmgkey : ∀ g members kv, mg g members = some kv →
      ∃ base rest, sortAscById members = base :: rest ∧ kv.1 = base.id) :
    (dictKeys ((partitionPosts ps).1.filterMap
      (fun gb => mg gb.1 gb.2))).Nodup := by
  have hpw := merge_pairwise_keys mg ps hkeys hid hmgkey
  rw [dictKeys, List.Nodup, List.pairwise_map, List.pairwise_filterMap]
  refine hpw.imp_of_mem ?_
  intro a b _ _ hr kva hkva kvb hkvb
  rw [Option.mem_def] at hkva hkvb
  exact hr kva kvb hkva hkvb

theorem ug_keys_nodup (ps : PostMap) (hkeys : (dictKeys ps).Nodup) :
    (dictKeys (partitionPosts ps).2).Nodup := by
  rw [partitionPosts_snd, dictKeys]
  exact List.Nodup.sublist ((ps.filter_sublist).map Prod.fst) hkeys

theorem ug_member_gid_none (ps : PostMap) :
    ∀ kp ∈ (partitionPosts ps).2, truthyGid kp.2 = none := by
  intro kp hkp
  rw [partitionPosts_snd] at hkp
  have := (List.mem_filter.mp hkp).2
  simpa [Option.isNone_iff_eq_none] using this

/-- A nonempty group has its bucket in the classification output. -/
theorem group_bucket_mem (ps : PostMap) (g : Int)
    (hne : groupMembers ps g ≠ []) :
    (g, groupMembers ps g) ∈ (partitionPosts ps).1 := by
  have h := partitionPosts_get ps g
  rw [if_neg hne] at h
  exact groupGet_mem _ g _ h

end Timeforcv

namespace Timeforcv

theorem dictGet_mem (l : PostMap) (k : Int) (v : Post)
    (h : dictGet l k = some v) : (k, v) ∈ l := by
  induction l with
  | nil => cases h
  | cons kp rest ih =>
    by_cases hk : kp.1 = k
    · simp only [dictGet, if_pos hk] at h
      rw [List.mem_cons]
      left
      rw [← Option.some_inj.mp h, ← hk]
    · simp only [dictGet, if_neg hk] at h
      exact List.mem_cons_of_mem kp (ih h)

/-- Every member of a group bucket filter carries that grouping key. -/
theorem gid_of_groupMembers (ps : PostMap) (g : Int) (p : Post)
    (hp : p ∈ groupMembers ps g) : truthyGid p = some g := by
  rcases List.mem_map.mp hp with ⟨kp, hkp, hsnd⟩
  have hfil := (List.mem_filter.mp hkp).2
  rw [← hsnd]
  simpa using hfil

theorem truthyGid_mk (v : Post) (g : Int) (hg : v.grouped_id = some g)
    (hnz : g ≠ 0) : truthyGid v = some g := by
  unfold truthyGid
  rw [hg]
  change (if g = 0 then none else some g) = some g
  rw [if_neg hnz]

/-- The group key of a nonempty bucket is nonzero. -/
theorem group_key_nonzero (ps : PostMap) (g : Int) (p : Post)
    (hp : p ∈ groupMembers ps g) : g ≠ 0 :=
  truthyGid_ne_zero p g (gid_of_groupMembers ps g p hp)

/-- Generic per-group lookup/absence result for a head-keyed merge body. -/
theorem merge_albums_with_group_lookup
    (mg : Int → List Post → Option (Int × Post)) (ps : PostMap)
    (hkeys : (dictKeys ps).Nodup) (hid : ∀ kp ∈ ps, kp.2.id = kp.1)
    (hmgkey : ∀ g members kv, mg g members = some kv →
      ∃ base rest, sortAscById members = base :: rest ∧ kv.1 = base.id)
    (g : Int) (base : Post) (rest : List Post)
    (hsort : sortAscById (groupMembers ps g) = base :: rest) :
    (∀ kv2, mg g (groupMembers ps g) = some kv2 →
      dictGet (merge_albums_with mg ps) base.id = some kv2.2) ∧
    (∀ q ∈ groupMembers ps g, q.id ≠ base.id →
      dictGet (merge_albums_with mg ps) q.id = none) := by
  have hne : groupMembers ps g ≠ [] := by
    intro he
    rw [he] at hsort
    simp [sortAscById] at hsort
  have hb : (g, groupMembers ps g) ∈ (partitionPosts ps).1 :=
    group_bucket_mem ps g hne
  have hbase : base ∈ groupMembers ps g :=
    sortAscById_head_mem _ base rest hsort
  have hout := merge_albums_with_eq mg ps hkeys hid hmgkey
  constructor
  · intro kv2 hkv2
    rcases hmgkey g (groupMembers ps g) kv2 hkv2 with ⟨b2, r2, hs2, hk2⟩
    rw [hsort] at hs2
    have hb2 : b2 = base := by
      injection hs2 with h1 h2
      exact h1.symm
    rw [hb2] at hk2
    rw [hout]
    rw [dictGet_append]
    have hug : dictGet (partitionPosts ps).2 base.id = none :=
      (dictGet_eq_none_iff _ _).mpr
        (groupMember_id_not_ungrouped ps hkeys hid g base hbase)
    rw [hug]
    have hmem : kv2 ∈ (partitionPosts ps).1.filterMap (fun gb => mg gb.1 gb.2) :=
      List.mem_filterMap.mpr ⟨(g, groupMembers ps g), hb, hkv2⟩
    have hkv2eta : (base.id, kv2.2) = kv2 := by
      rw [← hk2]
    rw [← hkv2eta] at hmem
    exact dictGet_of_mem _ base.id kv2.2
      (merged_keys_nodup mg ps hkeys hid hmgkey) hmem
  · intro q hq hqne
    rw [hout]
    apply (dictGet_eq_none_iff _ _).mpr
    rw [dictKeys, List.map_append]
    intro hmem
    rcases List.mem_append.mp hmem with hm | hm
    · exact groupMember_id_not_ungrouped ps hkeys hid g q hq hm
    · rcases List.mem_map.mp hm with ⟨kv, hkv, hfst⟩
      rcases List.mem_filterMap.mp hkv with ⟨gb, hgb, hmg⟩
      rcases hmgkey gb.1 gb.2 kv hmg with ⟨b2, r2, hs2, hk2⟩
      rcases partitionPosts_mem_bucket ps gb hgb with ⟨hbucket, _⟩
      have hmb2 : b2 ∈ groupMembers ps gb.1 := by
        rw [← hbucket]
        exact sortAscById_head_mem gb.2 b2 r2 hs2
      have hqid : q.id = b2.id := by
        rw [← hfst, hk2]
      rcases groupMembers_id_inj ps hkeys hid g gb.1 q b2 hq hmb2 hqid with
        ⟨hqb2, hgg⟩
      have hbucketg : gb.2 = groupMembers ps g := by
        rw [hbucket, hgg]
      rw [hbucketg, hsort] at hs2
      have hb2base : b2 = base := by
        injection hs2 with h1 h2
        exact h1.symm
      apply hqne
      rw [hqid, hb2base]

/-- Generic grouping-key uniqueness of the merged output. -/
theorem merge_albums_with_gid_unique
    (mg : Int → List Post → Option (Int × Post)) (ps : PostMap)
    (hkeys : (dictKeys ps).Nodup) (hid : ∀ kp ∈ ps, kp.2.id = kp.1)
    (hmgkey : ∀ g members kv, mg g members = some kv →
      ∃ base rest, sortAscById members = base :: rest ∧ kv.1 = base.id)
    (hmggid : ∀ gb ∈ (partitionPosts ps).1, ∀ kv, mg gb.1 gb.2 = some kv →
      truthyGid kv.2 = some gb.1) :
    (merge_albums_with mg ps).Pairwise
      (fun a b => ∀ g2, truthyGid a.2 = some g2 → truthyGid b.2 ≠ some g2) := by
  rw [merge_albums_with_eq mg ps hkeys hid hmgkey]
  rw [List.pairwise_append]
  refine ⟨?_, ?_, ?_⟩
  · refine List.pairwise_of_forall_mem_list ?_
    intro a ha b hb g2 hg2
    rw [ug_member_gid_none ps a ha] at hg2
    cases hg2
  · rw [List.pairwise_filterMap]
    have hnd := partitionPosts_keys_nodup ps
    have hpw : (partitionPosts ps).1.Pairwise (fun a b => a.1 ≠ b.1) :=
      List.pairwise_map.mp hnd
    refine List.Pairwise.imp_of_mem ?_ hpw
    intro a b ha hb hne kva hkva kvb hkvb g2 hga hgb2
    rw [Option.mem_def] at hkva hkvb
    rw [hmggid a ha kva hkva] at hga
    rw [hmggid b hb kvb hkvb] at hgb2
    apply hne
    rw [Option.some_inj.mp hga, Option.some_inj.mp hgb2]
  · intro a ha b hb g2 hg2
    rw [ug_member_gid_none ps a ha] at hg2
    cases hg2

end Timeforcv

namespace Timeforcv

theorem merge_group_postmerge_gid (ps : PostMap) :
    ∀ gb ∈ (partitionPosts ps).1, ∀ kv,
      PostMerge.merge_group gb.1 gb.2 = some kv →
      truthyGid kv.2 = some gb.1 := by
  intro gb hgb kv hkv
  rcases partitionPosts_mem_bucket ps gb hgb with ⟨hbucket, hne⟩
  obtain ⟨base, rest, hsort⟩ := sortAscById_ne_nil gb.2 hne
  rw [merge_group_postmerge_some gb.1 gb.2 base rest hsort] at hkv
  have hkveq := Option.some_inj.mp hkv
  have hbm : base ∈ groupMembers ps gb.1 := by
    rw [← hbucket]
    exact sortAscById_head_mem _ _ _ hsort
  have hnz : gb.1 ≠ 0 := group_key_nonzero ps gb.1 base hbm
  rw [← hkveq]
  exact truthyGid_mk _ gb.1 rfl hnz

theorem merge_group_legacy_gid (ps : PostMap) :
    ∀ gb ∈ (partitionPosts ps).1, ∀ kv,
      FetchTelegram.merge_group gb.1 gb.2 = some kv →
      truthyGid kv.2 = some gb.1 := by
  intro gb hgb kv hkv
  rcases partitionPosts_mem_bucket ps gb hgb with ⟨hbucket, hne⟩
  obtain ⟨base, rest, hsort⟩ := sortAscById_ne_nil gb.2 hne
  rw [merge_group_legacy_some gb.1 gb.2 base rest hsort] at hkv
  have hkveq := Option.some_inj.mp hkv
  have hbm : base ∈ groupMembers ps gb.1 := by
    rw [← hbucket]
    exact sortAscById_head_mem _ _ _ hsort
  have hnz : gb.1 ≠ 0 := group_key_nonzero ps gb.1 base hbm
  rw [← hkveq]
  exact truthyGid_mk _ gb.1 rfl hnz

/-- C1 amended: on a well-formed store (distinct keys, key = post id), every
nonempty group of posts sharing a (truthy) grouping key g is represented in
the output of either merger by exactly one surviving record, stored under the
id of the member with the smallest id; its text and html are the first
nonempty values scanning the members in ascending-id order (so its own when
nonempty); every other group member is absent; and no two surviving records
share a truthy grouping key.  The two implementations differ exactly in the
media list: scripts/post_merge.py stores the ascending-id-order union with
duplicate (path, kind, mime) triples removed (a duplicate-free sublist of the
concatenation covering every triple), while the orchestrator's legacy merger
in scripts/fetch_telegram.py stores the plain concatenation, duplicates
retained. -/
theorem merge_albums_album_spec (ps : PostMap)
    (hkeys : (dictKeys ps).Nodup) (hid : ∀ kp ∈ ps, kp.2.id = kp.1) :
    (∀ g : Int, ∀ p0 ∈ groupMembers ps g, ∃ base rest,
      ascMembers ps g = base :: rest ∧
      base ∈ groupMembers ps g ∧
      (∀ q ∈ groupMembers ps g, base.id ≤ q.id) ∧
      (ascMembers ps g).Perm (groupMembers ps g) ∧
      (ascMembers ps g).Pairwise (fun a b => a.id ≤ b.id) ∧
      dictGet (PostMerge.merge_albums ps) base.id = some
        { base with
            media := some (PostMerge.dedupeMedia [] (groupMediaAsc ps g)),
            text := some (firstTruthy Post.text (ascMembers ps g)),
            html := some (firstTruthy Post.html (ascMembers ps g)),
            grouped_id := some g } ∧
      dictGet (FetchTelegram.merge_albums ps) base.id = some
        { base with
            media := some (groupMediaAsc ps g),
            text := some (firstTruthy Post.text (ascMembers ps g)),
            html := some (firstTruthy Post.html (ascMembers ps g)),
            grouped_id := some g } ∧
      ((PostMerge.dedupeMedia [] (groupMediaAsc ps g)).map
          PostMerge.media_dedupe_key).Nodup ∧
      (PostMerge.dedupeMedia [] (groupMediaAsc ps g)).Sublist
        (groupMediaAsc ps g) ∧
      (∀ it ∈ groupMediaAsc ps g,
        ∃ it2 ∈ PostMerge.dedupeMedia [] (groupMediaAsc ps g),
          PostMerge.media_dedupe_key it2 = PostMerge.media_dedupe_key it) ∧
      (∀ q ∈ groupMembers ps g, q.id ≠ base.id →
        dictGet (PostMerge.merge_albums ps) q.id = none ∧
        dictGet (FetchTelegram.merge_albums ps) q.id = none)) ∧
    (PostMerge.merge_albums ps).Pairwise
      (fun a b => ∀ g2, truthyGid a.2 = some g2 → truthyGid b.2 ≠ some g2) ∧
    (FetchTelegram.merge_albums ps).Pairwise
      (fun a b => ∀ g2, truthyGid a.2 = some g2 → truthyGid b.2 ≠ some g2) := by
  refine ⟨?_, ?_, ?_⟩
  · intro g p0 hp0
    have hne : groupMembers ps g ≠ [] := List.ne_nil_of_mem hp0
    obtain ⟨base, rest, hsort⟩ := sortAscById_ne_nil _ hne
    have hasc : ascMembers ps g = base :: rest := hsort
    have hmedia : groupMediaAsc ps g =
        (base :: rest).flatMap (fun p => (p.media).getD []) := by
      unfold groupMediaAsc ascMembers
      rw [hsort]
    have hlkP := merge_albums_with_group_lookup PostMerge.merge_group ps hkeys
      hid merge_group_postmerge_key g base rest hsort
    have hlkL := merge_albums_with_group_lookup FetchTelegram.merge_group ps
      hkeys hid merge_group_legacy_key g base rest hsort
    refine ⟨base, rest, hasc, sortAscById_head_mem _ _ _ hsort,
      sortAscById_head_min _ _ _ hsort, sortAscById_perm _,
      sortAscById_sorted _, ?_, ?_, (dedupeMedia_keys [] _).1,
      dedupeMedia_sublist [] _, ?_, ?_⟩
    · have hcontent := merge_group_postmerge_some g (groupMembers ps g) base
        rest hsort
      have hres := hlkP.1 _ hcontent
      show dictGet (merge_albums_with PostMerge.merge_group ps) base.id = _
      rw [hmedia, hasc]
      exact hres
    · have hcontent := merge_group_legacy_some g (groupMembers ps g) base
        rest hsort
      have hres := hlkL.1 _ hcontent
      show dictGet (merge_albums_with FetchTelegram.merge_group ps) base.id = _
      rw [hmedia, hasc]
      exact hres
    · intro it hit
      rcases dedupeMedia_covers [] (groupMediaAsc ps g) it hit with h | h
      · cases h
      · exact h
    · intro q hq hqne
      exact ⟨hlkP.2 q hq hqne, hlkL.2 q hq hqne⟩
  · exact merge_albums_with_gid_unique PostMerge.merge_group ps hkeys hid
      merge_group_postmerge_key (merge_group_postmerge_gid ps)
  · exact merge_albums_with_gid_unique FetchTelegram.merge_group ps hkeys hid
      merge_group_legacy_key (merge_group_legacy_gid ps)

end Timeforcv

namespace Timeforcv

/-- A concrete media item shared by both members of the counterexample album. -/
def cexMediaA : MediaItem :=
  { kind := some "photo", path := some "assets/media/5.jpg", thumb := none,
    size := some 10, mime := some "image/jpeg", name := none }

/-- A second, distinct media item. -/
def cexMediaB : MediaItem :=
  { kind := some "photo", path := some "assets/media/6.jpg", thumb := none,
    size := some 11, mime := some "image/jpeg", name := none }

/-- First member of album 77: id 5, no caption, media [A]. -/
def albumPost5 : Post :=
  { id := 5, date := some "2024-01-01", edited := none, text := some "",
    html := some "", link := none, type := some "photo", views := none,
    forwards := none, grouped_id := some 77,
    media := some [cexMediaA], reactions := none }

/-- Second member of album 77: id 6, caption, media [A, B] with A repeated
from the first member. -/
def albumPost6 : Post :=
  { id := 6, date := some "2024-01-01", edited := none,
    text := some "caption", html := some "cap", link := none,
    type := some "photo", views := none, forwards := none,
    grouped_id := some 77, media := some [cexMediaA, cexMediaB],
    reactions := none }

/-- A two-member album store. -/
def albumMap : PostMap := [(5, albumPost5), (6, albumPost6)]

/-- C1 counterexample: on the concrete album store, the orchestrator's own
merge_albums (the one the sync run calls) keeps the duplicate media triple:
the surviving record's media list is [A, A, B], whose (path, kind, mime)
keys are not duplicate-free, while the modular post_merge.merge_albums
removes the duplicate.  So the claim that the album merger always removes
duplicates by the (path, kind, mime) triple is false of the merger the
pipeline runs. -/
theorem merge_albums_dedup_counterexample :
    dictGet (FetchTelegram.merge_albums albumMap) 5 = some
      { albumPost5 with media := some [cexMediaA, cexMediaA, cexMediaB],
                        text := some "caption", html := some "cap",
                        grouped_id := some 77 } ∧
    ¬ (([cexMediaA, cexMediaA, cexMediaB].map
        PostMerge.media_dedupe_key).Nodup) ∧
    dictGet (PostMerge.merge_albums albumMap) 5 = some
      { albumPost5 with media := some [cexMediaA, cexMediaB],
                        text := some "caption", html := some "cap",
                        grouped_id := some 77 } := by
  refine ⟨rfl, by decide, rfl⟩

/-- Witness for C1: on the concrete album store both merged outputs have no
two records sharing a truthy grouping key. -/
theorem merge_albums_album_spec_witness :
    (PostMerge.merge_albums albumMap).Pairwise
      (fun a b => ∀ g2, truthyGid a.2 = some g2 → truthyGid b.2 ≠ some g2) ∧
    (FetchTelegram.merge_albums albumMap).Pairwise
      (fun a b => ∀ g2, truthyGid a.2 = some g2 → truthyGid b.2 ≠ some g2) :=
  ⟨(merge_albums_album_spec albumMap (by decide) (by decide)).2.1,
   (merge_albums_album_spec albumMap (by decide) (by decide)).2.2⟩

/-- C10: merge_albums leaves every input post whose grouping key is absent,
null, or 0 unchanged in the output under its original key; it introduces no
new keys; and a post whose stored record it changes or removes necessarily
carries a truthy (nonzero, non-null) grouping key. -/
theorem merge_albums_ungrouped_frame (ps : PostMap)
    (hkeys : (dictKeys ps).Nodup) (hid : ∀ kp ∈ ps, kp.2.id = kp.1) :
    (∀ kp ∈ ps, truthyGid kp.2 = none →
      dictGet (PostMerge.merge_albums ps) kp.1 = some kp.2) ∧
    (∀ k : Int, dictGet ps k = none →
      dictGet (PostMerge.merge_albums ps) k = none) ∧
    (∀ k v, dictGet ps k = some v →
      dictGet (PostMerge.merge_albums ps) k ≠ some v → truthyGid v ≠ none) := by
  have hout := merge_albums_with_eq PostMerge.merge_group ps hkeys hid
    merge_group_postmerge_key
  have hfirst : ∀ kp ∈ ps, truthyGid kp.2 = none →
      dictGet (PostMerge.merge_albums ps) kp.1 = some kp.2 := by
    intro kp hkp hgid
    show dictGet (merge_albums_with PostMerge.merge_group ps) kp.1 = some kp.2
    rw [hout, dictGet_append]
    have hug : kp ∈ (partitionPosts ps).2 := by
      rw [partitionPosts_snd]
      refine List.mem_filter.mpr ⟨hkp, ?_⟩
      simp [hgid]
    have hkpe : (kp.1, kp.2) = kp := rfl
    rw [dictGet_of_mem (partitionPosts ps).2 kp.1 kp.2
      (ug_keys_nodup ps hkeys) (by rw [hkpe]; exact hug)]
  refine ⟨hfirst, ?_, ?_⟩
  · intro k hk
    show dictGet (merge_albums_with PostMerge.merge_group ps) k = none
    rw [hout]
    apply (dictGet_eq_none_iff _ _).mpr
    rw [dictKeys, List.map_append]
    have hkabs : k ∉ dictKeys ps := (dictGet_eq_none_iff ps k).mp hk
    intro hmem
    rcases List.mem_append.mp hmem with hm | hm
    · apply hkabs
      rw [partitionPosts_snd] at hm
      rcases List.mem_map.mp hm with ⟨kp, hkp, hfst⟩
      rw [← hfst]
      exact List.mem_map_of_mem Prod.fst (List.mem_of_mem_filter hkp)
    · rcases List.mem_map.mp hm with ⟨kv, hkv, hfst⟩
      rcases List.mem_filterMap.mp hkv with ⟨gb, hgb, hmg⟩
      rcases merge_group_postmerge_key gb.1 gb.2 kv hmg with ⟨b2, r2, hs2, hk2⟩
      rcases partitionPosts_mem_bucket ps gb hgb with ⟨hbucket, _⟩
      have hmb2 : b2 ∈ groupMembers ps gb.1 := by
        rw [← hbucket]
        exact sortAscById_head_mem gb.2 b2 r2 hs2
      rcases mem_of_groupMembers ps hid gb.1 b2 hmb2 with ⟨hin, _⟩
      apply hkabs
      rw [← hfst, hk2]
      exact List.mem_map_of_mem Prod.fst hin
  · intro k v hget hne hgid
    apply hne
    have hkv : (k, v) ∈ ps := dictGet_mem ps k v hget
    have hidk : v.id = k := hid (k, v) hkv
    exact hfirst (k, v) hkv hgid

/-- Witness for C10: the two ungrouped posts of the concrete store survive
post_merge.merge_albums unchanged under their own keys. -/
theorem merge_albums_ungrouped_frame_witness :
    dictGet (PostMerge.merge_albums cexMap) 1 = some wPostA ∧
    dictGet (PostMerge.merge_albums cexMap) 2 = some wPost2 :=
  ⟨(merge_albums_ungrouped_frame cexMap (by decide) (by decide)).1
      (1, wPostA) (by decide) rfl,
   (merge_albums_ungrouped_frame cexMap (by decide) (by decide)).1
      (2, wPost2) (by decide) rfl⟩

end Timeforcv

namespace Timeforcv

/-- One outcome of invoking the operation factory inside run_with_retries:
success, a FloodWaitError carrying the signalled wait (the int extracted
from fw.seconds / fw.x / 0), or a generic transient error (RPCError,
asyncio.TimeoutError, OSError). -/
inductive OpOutcome (α : Type) where
  | ok (v : α)
  | floodWait (seconds : Int)
  | transientErr
deriving DecidableEq, Repr

/-- A sleep performed by run_with_retries, in seconds. -/
inductive RetryEvent where
  | floodSleep (q : ℚ)
  | backoffSleep (q : ℚ)
deriving DecidableEq, Repr

/-- How a run of run_with_retries over a finite outcome trace ends. -/
inductive RetryResult (α : Type) where
  | ok (v : α)
  | raised
  | pending
deriving DecidableEq, Repr

namespace MediaUtils

/-- The loop of scripts/media_utils.py run_with_retries, lines 31-71, over a
finite trace of operation outcomes.  State: attempt counter, current
delay_seconds, index into the jitter oracle u (random.uniform(-a, a) is
modelled as a times u i with the bound on u a hypothesis where needed).
pending means the trace ended while the loop would have continued. -/
def run_with_retries_go {α : Type} (retries : Nat)
    (max_backoff_seconds jitter_ratio : ℚ) (u : ℕ → ℚ) :
    List (OpOutcome α) → Nat → ℚ → ℕ → List RetryEvent × RetryResult α
  | [], _, _, _ => ([], .pending)
  | .ok v :: _, _, _, _ => ([], .ok v)
  | .floodWait s :: rest, attempt, delay_seconds, i =>
    let wait_seconds : Int := max s 1
    let r := run_with_retries_go retries max_backoff_seconds jitter_ratio u
      rest attempt delay_seconds i
    (.floodSleep (wait_seconds : ℚ) :: r.1, r.2)
  | .transientErr :: rest, attempt, delay_seconds, i =>
    if attempt + 1 > retries then ([], .raised)
    else
      let jitter_amount := delay_seconds * jitter_ratio
      let sleep_for := delay_seconds +
        (if jitter_amount ≠ 0 then jitter_amount * u i else 0)
      let r := run_with_retries_go retries max_backoff_seconds jitter_ratio u
        rest (attempt + 1) (min (delay_seconds * 2) max_backoff_seconds) (i + 1)
      (.backoffSleep (max sleep_for 0) :: r.1, r.2)

/-- scripts/media_utils.py run_with_retries: attempt starts at 0,
delay_seconds at backoff_seconds; defaults max_backoff_seconds=30.0,
jitter_ratio=0.25. -/
def run_with_retries {α : Type} (outcomes : List (OpOutcome α))
    (retries : Nat) (backoff_seconds : ℚ) (u : ℕ → ℚ)
    (max_backoff_seconds : ℚ := 30) (jitter_ratio : ℚ := 1 / 4) :
    List RetryEvent × RetryResult α :=
  run_with_retries_go retries max_backoff_seconds jitter_ratio u
    outcomes 0 backoff_seconds 0

end MediaUtils

theorem run_with_retries_flood_replicate {α : Type} (retries : Nat)
    (maxB ratio : ℚ) (u : ℕ → ℚ) (n : Nat) (s : Int)
    (rest : List (OpOutcome α)) (attempt : Nat) (delay : ℚ) (i : ℕ) :
    MediaUtils.run_with_retries_go retries maxB ratio u
        (List.replicate n (.floodWait s) ++ rest) attempt delay i =
      (List.replicate n (RetryEvent.floodSleep ((max s 1 : Int) : ℚ)) ++
        (MediaUtils.run_with_retries_go retries maxB ratio u rest
          attempt delay i).1,
       (MediaUtils.run_with_retries_go retries maxB ratio u rest
          attempt delay i).2) := by
  induction n with
  | zero => simp
  | succ n ih =>
    simp only [List.replicate_succ, List.cons_append,
      MediaUtils.run_with_retries_go, List.append_eq, ih]

/-- The delay after m doublings, capped. -/
def delayAfter (maxB : ℚ) : Nat → ℚ → ℚ
  | 0, d => d
  | m + 1, d => delayAfter maxB m (min (d * 2) maxB)

theorem run_with_retries_transient_replicate {α : Type} (retries : Nat)
    (maxB ratio : ℚ) (u : ℕ → ℚ) (m : Nat) (rest : List (OpOutcome α)) :
    ∀ (attempt : Nat) (delay : ℚ) (i : ℕ),
    (MediaUtils.run_with_retries_go retries maxB ratio u
        (List.replicate m .transientErr ++ rest) attempt delay i).2 =
      if 0 < m ∧ attempt + m > retries then .raised
      else (MediaUtils.run_with_retries_go retries maxB ratio u rest
        (attempt + m) (delayAfter maxB m delay) (i + m)).2 := by
  induction m with
  | zero => intro attempt delay i; simp [delayAfter]
  | succ m ih =>
    intro attempt delay i
    simp only [List.replicate_succ, List.cons_append]
    by_cases h : attempt + 1 > retries
    · simp only [MediaUtils.run_with_retries_go, if_pos h]
      have hcond : 0 < m + 1 ∧ attempt + (m + 1) > retries := by
        constructor
        · exact Nat.succ_pos m
        · omega
      rw [if_pos hcond]
    · simp only [MediaUtils.run_with_retries_go, if_neg h]
      rw [ih (attempt + 1) (min (delay * 2) maxB) (i + 1)]
      by_cases hm : 0 < m ∧ attempt + 1 + m > retries
      · rw [if_pos hm]
        have hcond : 0 < m + 1 ∧ attempt + (m + 1) > retries := by
          refine ⟨Nat.succ_pos m, by omega⟩
        rw [if_pos hcond]
      · rw [if_neg hm]
        have hcond : ¬ (0 < m + 1 ∧ attempt + (m + 1) > retries) := by
          intro hc
          apply hm
          constructor
          · by_contra hm0
            have hm0e : m = 0 := by omega
            rw [hm0e] at hc
            omega
          · omega
        rw [if_neg hcond]
        have he : attempt + 1 + m = attempt + (m + 1) := by omega
        have he2 : i + 1 + m = i + (m + 1) := by omega
        rw [he, he2]
        rfl

/-- C4: run_with_retries sleeps max(signalled, 1) ≥ 1 seconds on a rate-limit
signal and retries the same operation with the attempt counter, delay and
jitter stream untouched — for every number of consecutive rate-limit
signals; a transient failure beyond the budget raises immediately, otherwise
it sleeps the current delay plus bounded jitter (clamped at 0), doubles the
delay up to the cap and increments the attempt counter; the jitter magnitude
never exceeds delay times the jitter ratio; and m consecutive transient
failures followed by a success (under the default 30-second cap and 0.25
ratio) succeed iff m is at most the configured retries count, raising to the
caller otherwise. -/
theorem run_with_retries_spec {α : Type} (retries : Nat) (maxB ratio : ℚ)
    (u : ℕ → ℚ) :
    (∀ (s : Int) (rest : List (OpOutcome α)) (attempt : Nat) (delay : ℚ)
        (i : ℕ),
      MediaUtils.run_with_retries_go retries maxB ratio u
          (.floodWait s :: rest) attempt delay i =
        (RetryEvent.floodSleep ((max s 1 : Int) : ℚ) ::
          (MediaUtils.run_with_retries_go retries maxB ratio u rest
            attempt delay i).1,
         (MediaUtils.run_with_retries_go retries maxB ratio u rest
            attempt delay i).2) ∧
      (1 : Int) ≤ max s 1) ∧
    (∀ (n : Nat) (s : Int) (rest : List (OpOutcome α)) (attempt : Nat)
        (delay : ℚ) (i : ℕ),
      (MediaUtils.run_with_retries_go retries maxB ratio u
        (List.replicate n (.floodWait s) ++ rest) attempt delay i).2 =
      (MediaUtils.run_with_retries_go retries maxB ratio u rest
        attempt delay i).2) ∧
    (∀ (rest : List (OpOutcome α)) (attempt : Nat) (delay : ℚ) (i : ℕ),
      attempt + 1 > retries →
      MediaUtils.run_with_retries_go retries maxB ratio u
        (.transientErr :: rest) attempt delay i = ([], .raised)) ∧
    (∀ (rest : List (OpOutcome α)) (attempt : Nat) (delay : ℚ) (i : ℕ),
      ¬ attempt + 1 > retries →
      MediaUtils.run_with_retries_go retries maxB ratio u
          (.transientErr :: rest) attempt delay i =
        (RetryEvent.backoffSleep
            (max (delay + (if delay * ratio ≠ 0 then delay * ratio * u i
                           else 0)) 0) ::
          (MediaUtils.run_with_retries_go retries maxB ratio u rest
            (attempt + 1) (min (delay * 2) maxB) (i + 1)).1,
         (MediaUtils.run_with_retries_go retries maxB ratio u rest
           (attempt + 1) (min (delay * 2) maxB) (i + 1)).2)) ∧
    (∀ (delay : ℚ) (i : ℕ), 0 ≤ delay → 0 ≤ ratio → |u i| ≤ 1 →
      |(if delay * ratio ≠ 0 then delay * ratio * u i else 0)| ≤
        delay * ratio) ∧
    (∀ (m : Nat) (v : α) (backoff : ℚ),
      (MediaUtils.run_with_retries
          (List.replicate m .transientErr ++ [.ok v]) retries backoff u).2 =
        if m > retries then .raised else .ok v) := by
  refine ⟨?_, ?_, ?_, ?_, ?_, ?_⟩
  · intro s rest attempt delay i
    exact ⟨rfl, le_max_right s 1⟩
  · intro n s rest attempt delay i
    rw [run_with_retries_flood_replicate]
  · intro rest attempt delay i h
    simp only [MediaUtils.run_with_retries_go, if_pos h]
  · intro rest attempt delay i h
    simp only [MediaUtils.run_with_retries_go, if_neg h]
  · intro delay i hd hr hu
    by_cases hz : delay * ratio = 0
    · rw [if_neg (not_not_intro hz)]
      simpa using mul_nonneg hd hr
    · rw [if_pos hz]
      rw [abs_mul]
      calc |delay * ratio| * |u i| ≤ |delay * ratio| * 1 := by
            exact mul_le_mul_of_nonneg_left hu (abs_nonneg _)
        _ = |delay * ratio| := mul_one _
        _ = delay * ratio := abs_of_nonneg (mul_nonneg hd hr)
  · intro m v backoff
    unfold MediaUtils.run_with_retries
    rw [run_with_retries_transient_replicate retries 30 (1 / 4) u m
      [OpOutcome.ok v] 0 backoff 0]
    by_cases hm : m > retries
    · have hc : 0 < m ∧ 0 + m > retries := ⟨by omega, by omega⟩
      rw [if_pos hc, if_pos hm]
    · have hc : ¬ (0 < m ∧ 0 + m > retries) := by
        intro hcc
        exact hm (by omega)
      rw [if_neg hc, if_neg hm]
      rfl

/-- Witness for C4: on a concrete trace (two transient failures, then
success) with 3 retries, base backoff 2, no jitter draw, the operation
succeeds; and a rate-limit signal of 0 seconds sleeps exactly 1 second. -/
theorem run_with_retries_spec_witness :
    (MediaUtils.run_with_retries
      (List.replicate 2 OpOutcome.transientErr ++ [OpOutcome.ok (42 : Int)])
      3 2 (fun _ => 0)).2 = RetryResult.ok 42 ∧
    (1 : Int) ≤ max 0 1 := by
  constructor
  · have h := (run_with_retries_spec (α := Int) 3 30 (1 / 4)
      (fun _ => 0)).2.2.2.2.2 2 42 2
    rw [h]
    rfl
  · exact (run_with_retries_spec (α := Int) 3 30 (1 / 4)
      (fun _ => 0)).1 0 [] 0 2 0 |>.2

end Timeforcv

namespace Timeforcv

namespace Utils

/-- scripts/utils.py safe_filename (identical in fetch_telegram.py): replace
every character outside [a-zA-Z0-9._-] by an underscore, then truncate to 120
characters. -/
def safe_filename (s : String) : String :=
  let mapped := String.mk (s.toList.map (fun c =>
    if c.isAlphanum ∨ c = '.' ∨ c = '_' ∨ c = '-' then c else '_'))
  if mapped.length > 120 then String.mk (mapped.toList.take 120) else mapped

end Utils

/-- The fields of a telethon message.file descriptor that the media fetch
reads. -/
structure TelegramFile where
  size : Option Int
  mime_type : Option String
  ext : Option String
  name : Option String
deriving DecidableEq, Repr

/-- The fields of a telethon Message the media fetch reads: id, truthiness
of message.media, the file descriptor, and the (externally computed)
classification get_message_type(message). -/
structure Message where
  id : Int
  hasMedia : Bool
  file : Option TelegramFile
  kind : String
deriving DecidableEq, Repr

namespace MediaUtils

/-- The deterministic output filename of download_message_media
(scripts/media_utils.py lines 137-156; identical derivation in the legacy
maybe_download_media): message id, then optionally the sanitized original
filename, then the extension when not already present. -/
def output_filename (m : Message) (f : TelegramFile) : String :=
  let file_ext0 := (f.ext).getD ""
  let file_ext := if file_ext0 ≠ "" ∧ ¬ file_ext0.startsWith "." then
      "." ++ file_ext0 else file_ext0
  let file_name := (f.name).getD "" |> (fun n =>
    if n = "" then n else Utils.safe_filename n)
  let base_filename := toString m.id
  if file_name ≠ "" ∧ file_ext ≠ "" then
    let out := base_filename ++ "_" ++ file_name
    if ¬ out.endsWith file_ext then out ++ file_ext else out
  else if file_ext ≠ "" then base_filename ++ file_ext
  else base_filename

/-- ASSETS_DIR / output_filename (docs/assets/media). -/
def output_path (m : Message) (f : TelegramFile) : String :=
  "docs/assets/media/" ++ output_filename m f

/-- The stored path, relative to the docs directory. -/
def relative_path (m : Message) (f : TelegramFile) : String :=
  "assets/media/" ++ output_filename m f

/-- file_size is not None and file_size > max_bytes. -/
def sizeExceeds (size : Option Int) (max_bytes : Int) : Bool :=
  match size with
  | some sz => sz > max_bytes
  | none => false

/-- Path.suffix: the final extension of a filename, including the dot, empty
when there is no dot. -/
def path_suffix (p : String) : String :=
  match p.splitOn "." with
  | [] => ""
  | [_] => ""
  | parts => "." ++ parts.getLastD ""

/-- The thumbnail condition of download_message_media lines 175-181: the
kind is photo/image, or the MIME type is image/*, or the downloaded file's
lowercased suffix is a known image extension. -/
def is_image_file (m : Message) (f : TelegramFile) : Bool :=
  (m.kind == "photo") || (m.kind == "image") ||
  ((f.mime_type.getD "").toLower.startsWith "image/") ||
  ([".jpg", ".jpeg", ".png", ".webp", ".gif"].contains
    ((path_suffix (output_path m f)).toLower))

/-- The thumbnail recorded on the item: generate_thumbnail(path) (an oracle,
none when generation fails) only for image-like media. -/
def thumbFor (m : Message) (f : TelegramFile)
    (thumbOracle : String → Option String) : Option String :=
  if is_image_file m f then thumbOracle (output_path m f) else none

/-- The MediaItem built by download_message_media lines 183-198. -/
def media_item_of (m : Message) (f : TelegramFile)
    (thumb : Option String) : MediaItem :=
  { kind := if m.kind = "photo" ∨ m.kind = "video" ∨ m.kind = "audio" then
      some m.kind else some "document",
    path := some (relative_path m f),
    thumb := thumb,
    size := f.size,
    mime := match f.mime_type with
      | some s => if s = "" then none else some s
      | none => none,
    name := (f.name).map (fun n => if n = "" then n else Utils.safe_filename n) }

/-- scripts/media_utils.py download_message_media, lines 117-200, over a
filesystem oracle (does a path exist) and a download-success oracle (the
retried client.download_media writing the requested output path).  Returns
the media list, the status tag, and the number of network transfers
performed. -/
def download_message_media (m : Message) (max_bytes : Int)
    (fsExists : String → Bool) (downloadOk : Bool)
    (thumbOracle : String → Option String) :
    List MediaItem × String × Nat :=
  if ¬ m.hasMedia then ([], "no_media", 0)
  else match m.file with
  | none => ([], "missing_file", 0)
  | some f =>
    if sizeExceeds f.size max_bytes then ([], "skipped_too_large", 0)
    else
      let item := media_item_of m f (thumbFor m f thumbOracle)
      if fsExists (output_path m f) then ([item], "downloaded", 0)
      else if downloadOk then ([item], "downloaded", 1)
      else ([], "download_failed", 1)

end MediaUtils

namespace FetchTelegram

/-- The MediaItem built by the legacy maybe_download_media (no thumb field;
mime kept verbatim, even when empty). -/
def media_item_of (m : Message) (f : TelegramFile) : MediaItem :=
  { kind := if m.kind = "photo" ∨ m.kind = "video" ∨ m.kind = "audio" then
      some m.kind else some "document",
    path := some (MediaUtils.relative_path m f),
    thumb := none,
    size := f.size,
    mime := f.mime_type,
    name := (f.name).map (fun n => if n = "" then n else Utils.safe_filename n) }

/-- scripts/fetch_telegram.py maybe_download_media, lines 451-505: same
logic, but no status tag is produced — an oversized or failed download just
yields an empty list. -/
def maybe_download_media (m : Message) (max_bytes : Int)
    (fsExists : String → Bool) (downloadOk : Bool) :
    List MediaItem × Nat :=
  if ¬ m.hasMedia then ([], 0)
  else match m.file with
  | none => ([], 0)
  | some f =>
    if MediaUtils.sizeExceeds f.size max_bytes then ([], 0)
    else
      let item := media_item_of m f
      if fsExists (MediaUtils.output_path m f) then ([item], 0)
      else if downloadOk then ([item], 1)
      else ([], 1)

/-- posts whose media list is truthy are skipped by the backfill
(fetch_telegram.py line 677). -/
def media_truthy (p : Post) : Bool :=
  match p.media with
  | some (_ :: _) => true
  | _ => false

/-- p.get("type") in {photo, video, audio, document, image, sticker}
(fetch_telegram.py line 680). -/
def media_type_suggests (p : Post) : Bool :=
  match p.type with
  | some t => (t == "photo") || (t == "video") || (t == "audio") ||
      (t == "document") || (t == "image") || (t == "sticker")
  | none => false

/-- A post is a media-backfill candidate: no truthy media and a
media-suggesting type. -/
def backfill_candidate (p : Post) : Bool :=
  !media_truthy p && media_type_suggests p

/-- The per-candidate update of the backfill loop (fetch_telegram.py lines
690-694): only a nonempty download result is recorded on the post; nothing
else about the attempt is stored. -/
def backfill_update (p : Post) (items : List MediaItem) : Post :=
  if items.isEmpty then p else { p with media := some items }

end FetchTelegram

end Timeforcv

namespace Timeforcv

/-- C5 amended: a media descriptor whose size exceeds the byte budget makes
download_message_media return an empty media list with status
skipped_too_large and no network transfer (and the legacy maybe_download_media
an empty list, no transfer); but the orchestrator's backfill records nothing
on the post after an empty result — the post is byte-for-byte unchanged and
still a backfill candidate, so a subsequent run re-attempts it rather than
skipping it. -/
theorem skipped_too_large_spec :
    (∀ (m : Message) (f : TelegramFile) (max_bytes : Int)
        (fsExists : String → Bool) (downloadOk : Bool)
        (th : String → Option String),
      m.hasMedia = true → m.file = some f →
      MediaUtils.sizeExceeds f.size max_bytes = true →
      MediaUtils.download_message_media m max_bytes fsExists downloadOk th =
        ([], "skipped_too_large", 0)) ∧
    (∀ (m : Message) (f : TelegramFile) (max_bytes : Int)
        (fsExists : String → Bool) (downloadOk : Bool),
      m.hasMedia = true → m.file = some f →
      MediaUtils.sizeExceeds f.size max_bytes = true →
      FetchTelegram.maybe_download_media m max_bytes fsExists downloadOk =
        ([], 0)) ∧
    (∀ p : Post, FetchTelegram.backfill_update p [] = p) ∧
    (∀ p : Post, FetchTelegram.backfill_candidate p = true →
      FetchTelegram.backfill_candidate (FetchTelegram.backfill_update p []) =
        true) := by
  refine ⟨?_, ?_, ?_, ?_⟩
  · intro m f max_bytes fsE dOk th hm hf hsz
    unfold MediaUtils.download_message_media
    rw [hm, hf]
    simp [hsz]
  · intro m f max_bytes fsE dOk hm hf hsz
    unfold FetchTelegram.maybe_download_media
    rw [hm, hf]
    simp [hsz]
  · intro p
    simp [FetchTelegram.backfill_update]
  · intro p hp
    simp [FetchTelegram.backfill_update]
    exact hp

/-- The oversized concrete message: a 999,999,999-byte video against a
1,000-byte budget. -/
def cexMsg : Message :=
  { id := 9, hasMedia := true,
    file := some { size := some 999999999, mime_type := some "video/mp4",
                   ext := some ".mp4", name := some "big.mp4" },
    kind := "video" }

/-- The stored post for message 9: video type, no media. -/
def cexOversizePost : Post :=
  { id := 9, date := some "2024-01-03", edited := none, text := some "",
    html := some "", link := none, type := some "video", views := none,
    forwards := none, grouped_id := none, media := some [],
    reactions := none }

/-- C5 counterexample: on the concrete oversized message the modular fetch
does return ([], skipped_too_large) with no transfer — but the pipeline's
backfill (the only caller in the sync run) gets an empty list from its own
maybe_download_media, records nothing on the post, and the post remains a
backfill candidate, so the next run does re-attempt the download instead of
skipping it. -/
theorem skipped_too_large_counterexample :
    MediaUtils.download_message_media cexMsg 1000 (fun _ => false) true
      (fun _ => none) = ([], "skipped_too_large", 0) ∧
    FetchTelegram.maybe_download_media cexMsg 1000 (fun _ => false) true =
      ([], 0) ∧
    FetchTelegram.backfill_update cexOversizePost [] = cexOversizePost ∧
    FetchTelegram.backfill_candidate cexOversizePost = true := by
  exact ⟨rfl, rfl, rfl, rfl⟩

/-- Witness for C5: the amended theorem evaluated on the concrete oversized
message and its post. -/
theorem skipped_too_large_spec_witness :
    MediaUtils.download_message_media cexMsg 1000 (fun _ => false) true
      (fun _ => none) = ([], "skipped_too_large", 0) ∧
    FetchTelegram.backfill_candidate
      (FetchTelegram.backfill_update cexOversizePost []) = true :=
  ⟨skipped_too_large_spec.1 cexMsg
      { size := some 999999999, mime_type := some "video/mp4",
        ext := some ".mp4", name := some "big.mp4" }
      1000 (fun _ => false) true (fun _ => none) rfl rfl rfl,
   skipped_too_large_spec.2.2.2 cexOversizePost rfl⟩

/-- C6: the output path derived by download_message_media depends only on
the message id, the sanitized original filename and the extension; when the
path already exists on disk no network transfer happens and the returned
item is the same as a fresh download would return; and running the fetch a
second time after a successful download (destination now present) performs
no second transfer and yields the same media item, hence the same path. -/
theorem download_media_idempotent_spec :
    (∀ (m m2 : Message) (f f2 : TelegramFile),
      m.id = m2.id → f.ext = f2.ext → f.name = f2.name →
      MediaUtils.output_path m f = MediaUtils.output_path m2 f2) ∧
    (∀ (m : Message) (f : TelegramFile) (max_bytes : Int)
        (fsExists : String → Bool) (downloadOk : Bool)
        (th : String → Option String),
      m.hasMedia = true → m.file = some f →
      MediaUtils.sizeExceeds f.size max_bytes = false →
      fsExists (MediaUtils.output_path m f) = true →
      MediaUtils.download_message_media m max_bytes fsExists downloadOk th =
        ([MediaUtils.media_item_of m f (MediaUtils.thumbFor m f th)],
         "downloaded", 0)) ∧
    (∀ (m : Message) (f : TelegramFile) (max_bytes : Int)
        (fsExists : String → Bool) (th : String → Option String),
      m.hasMedia = true → m.file = some f →
      MediaUtils.sizeExceeds f.size max_bytes = false →
      fsExists (MediaUtils.output_path m f) = false →
      MediaUtils.download_message_media m max_bytes fsExists true th =
        ([MediaUtils.media_item_of m f (MediaUtils.thumbFor m f th)],
         "downloaded", 1) ∧
      MediaUtils.download_message_media m max_bytes
          (fun q => q = MediaUtils.output_path m f || fsExists q) true th =
        ([MediaUtils.media_item_of m f (MediaUtils.thumbFor m f th)],
         "downloaded", 0)) := by
  refine ⟨?_, ?_, ?_⟩
  · intro m m2 f f2 hid hext hname
    unfold MediaUtils.output_path MediaUtils.output_filename
    rw [hid, hext, hname]
  · intro m f max_bytes fsE dOk th hm hf hsz hex
    unfold MediaUtils.download_message_media
    rw [hm, hf]
    simp [hsz, hex]
  · intro m f max_bytes fsE th hm hf hsz hex
    constructor
    · unfold MediaUtils.download_message_media
      rw [hm, hf]
      simp [hsz, hex]
    · unfold MediaUtils.download_message_media
      rw [hm, hf]
      simp [hsz]

/-- The concrete message for the C6 witness. -/
def wMsg : Message :=
  { id := 7, hasMedia := true,
    file := some { size := some 10, mime_type := some "image/jpeg",
                   ext := some ".jpg", name := some "pic 1.jpg" },
    kind := "photo" }

/-- The file descriptor of wMsg. -/
def wFile : TelegramFile :=
  { size := some 10, mime_type := some "image/jpeg", ext := some ".jpg",
    name := some "pic 1.jpg" }

/-- Witness for C6: on the concrete message, a first download transfers once
and a rerun with the destination present transfers nothing and returns the
same item. -/
theorem download_media_idempotent_spec_witness :
    MediaUtils.download_message_media wMsg 100 (fun _ => false) true
      (fun _ => none) =
      ([MediaUtils.media_item_of wMsg wFile
          (MediaUtils.thumbFor wMsg wFile (fun _ => none))],
       "downloaded", 1) ∧
    MediaUtils.download_message_media wMsg 100
        (fun q => q = MediaUtils.output_path wMsg wFile || false) true
        (fun _ => none) =
      ([MediaUtils.media_item_of wMsg wFile
          (MediaUtils.thumbFor wMsg wFile (fun _ => none))],
       "downloaded", 0) :=
  download_media_idempotent_spec.2.2 wMsg wFile 100 (fun _ => false)
    (fun _ => none) rfl rfl rfl rfl

end Timeforcv

namespace Timeforcv

/-- str.split() with no argument: split on runs of whitespace, dropping
empty pieces.  acc is the reversed current word. -/
def splitWsAux : List Char → List Char → List (List Char)
  | [], acc => if acc = [] then [] else [acc.reverse]
  | c :: rest, acc =>
    if c.isWhitespace then
      if acc = [] then splitWsAux rest []
      else acc.reverse :: splitWsAux rest []
    else splitWsAux rest (c :: acc)

/-- str.split() on a String. -/
def splitWs (s : String) : List String :=
  (splitWsAux s.toList []).map String.mk

/-- " ".join over character lists. -/
def joinWords : List (List Char) → List Char
  | [] => []
  | [w] => w
  | w :: rest => w ++ ' ' :: joinWords rest

/-- " ".join(l) on Strings. -/
def joinSpaceStr (l : List String) : String :=
  String.mk (joinWords (l.map String.toList))

/-- A word as produced by str.split(): nonempty and whitespace-free. -/
def IsWord (w : List Char) : Prop := w ≠ [] ∧ ∀ c ∈ w, ¬ c.isWhitespace

theorem splitWsAux_word_start (w : List Char) (hw : ∀ c ∈ w, ¬ c.isWhitespace) :
    ∀ (t acc : List Char),
    splitWsAux (w ++ t) acc = splitWsAux t (w.reverse ++ acc) := by
  induction w with
  | nil => intro t acc; simp
  | cons c w2 ih =>
    intro t acc
    have hc : ¬ c.isWhitespace := hw c (List.mem_cons_self c w2)
    have hw2 : ∀ x ∈ w2, ¬ x.isWhitespace :=
      fun x hx => hw x (List.mem_cons_of_mem c hx)
    simp only [List.cons_append, splitWsAux, if_neg hc]
    show splitWsAux (w2 ++ t) (c :: acc) = _
    rw [ih hw2 t (c :: acc)]
    simp

theorem splitWsAux_join (ls : List (List Char)) (h : ∀ w ∈ ls, IsWord w) :
    splitWsAux (joinWords ls) [] = ls := by
  induction ls with
  | nil => simp [joinWords, splitWsAux]
  | cons w rest ih =>
    rcases h w (List.mem_cons_self w rest) with ⟨hne, hnws⟩
    cases rest with
    | nil =>
      have h1 := splitWsAux_word_start w hnws [] []
      rw [List.append_nil] at h1
      show splitWsAux w [] = [w]
      rw [h1]
      simp only [splitWsAux, List.append_nil]
      rw [if_neg (by simpa using hne)]
      simp
    | cons w2 rest2 =>
      show splitWsAux (w ++ ' ' :: joinWords (w2 :: rest2)) [] = w :: w2 :: rest2
      rw [splitWsAux_word_start w hnws _ []]
      have hspace : (' ' : Char).isWhitespace = true := by decide
      simp only [splitWsAux, hspace, if_pos, List.append_nil]
      rw [if_neg (by simpa using hne)]
      simp only [List.reverse_reverse]
      rw [ih (fun x hx => h x (List.mem_cons_of_mem w hx))]

theorem splitWs_joinSpaceStr (l : List String)
    (h : ∀ s ∈ l, IsWord s.toList) :
    splitWs (joinSpaceStr l) = l := by
  unfold splitWs joinSpaceStr
  have htl : (String.mk (joinWords (l.map String.toList))).toList =
      joinWords (l.map String.toList) := rfl
  rw [htl]
  rw [splitWsAux_join (l.map String.toList)
    (by intro w hw
        rcases List.mem_map.mp hw with ⟨s, hs, hsw⟩
        rw [← hsw]
        exact h s hs)]
  rw [List.map_map]
  have hid : (String.mk ∘ String.toList) = id := funext (fun s => rfl)
  rw [hid, List.map_id]

end Timeforcv

namespace Timeforcv

theorem splitWsAux_words (chars : List Char) :
    ∀ acc : List Char, (∀ c ∈ acc, ¬ c.isWhitespace) →
    ∀ w ∈ splitWsAux chars acc, IsWord w := by
  induction chars with
  | nil =>
    intro acc hacc w hw
    simp only [splitWsAux] at hw
    by_cases h : acc = []
    · rw [if_pos h] at hw
      cases hw
    · rw [if_neg h] at hw
      rw [List.mem_singleton] at hw
      subst hw
      refine ⟨by simpa using h, ?_⟩
      intro c hc
      exact hacc c (List.mem_reverse.mp hc)
  | cons c rest ih =>
    intro acc hacc w hw
    simp only [splitWsAux] at hw
    by_cases hws : c.isWhitespace
    · rw [if_pos hws] at hw
      by_cases h : acc = []
      · rw [if_pos h] at hw
        exact ih [] (by simp) w hw
      · rw [if_neg h] at hw
        rcases List.mem_cons.mp hw with hw | hw
        · subst hw
          refine ⟨by simpa using h, ?_⟩
          intro x hx
          exact hacc x (List.mem_reverse.mp hx)
        · exact ih [] (by simp) w hw
    · rw [if_neg hws] at hw
      refine ih (c :: acc) ?_ w hw
      intro x hx
      rcases List.mem_cons.mp hx with hx | hx
      · subst hx; exact hws
      · exact hacc x hx

theorem splitWs_words (s : String) : ∀ w ∈ splitWs s, IsWord w.toList := by
  intro w hw
  rcases List.mem_map.mp hw with ⟨wc, hwc, hmk⟩
  have := splitWsAux_words s.toList [] (by simp) wc hwc
  rw [← hmk]
  exact this

/-- Attribute lists as handed to HTMLParser.handle_starttag: name and
optional value. -/
abbrev AttrList : Type := List (String × Option String)

/-- First binding of an attribute key (present/absent vs None-valued). -/
def attrGet (l : AttrList) (k : String) : Option (Option String) :=
  match l with
  | [] => none
  | kv :: rest => if kv.1 = k then some kv.2 else attrGet rest k

/-- Keys, in order. -/
def attrKeys (l : AttrList) : List String := l.map Prod.fst

/-- Python dict assignment on the attribute dict: replace in place or
append. -/
def attrSet (l : AttrList) (k : String) (v : Option String) : AttrList :=
  if k ∈ attrKeys l then l.map (fun kv => if kv.1 = k then (k, v) else kv)
  else l ++ [(k, v)]

/-- attrs_dict.pop(k, None): drop the binding of k. -/
def attrPop (l : AttrList) (k : String) : AttrList :=
  l.filter (fun kv => kv.1 != k)

/-- {k: v for k, v in attrs}: first-occurrence order, last value wins. -/
def attrsToDict (attrs : AttrList) : AttrList :=
  attrs.foldl (fun acc kv => attrSet acc kv.1 kv.2) []

theorem attrSet_keys (l : AttrList) (k : String) (v : Option String) :
    attrKeys (attrSet l k v) =
      if k ∈ attrKeys l then attrKeys l else attrKeys l ++ [k] := by
  by_cases h : k ∈ attrKeys l
  · rw [if_pos h]
    unfold attrSet
    rw [if_pos h]
    unfold attrKeys
    rw [List.map_map]
    apply List.map_congr_left
    intro kv _
    by_cases hk : kv.1 = k
    · simp [hk]
    · simp [hk]
  · rw [if_neg h]
    unfold attrSet
    rw [if_neg h]
    simp [attrKeys]

theorem attrSet_keys_nodup (l : AttrList) (k : String) (v : Option String)
    (h : (attrKeys l).Nodup) : (attrKeys (attrSet l k v)).Nodup := by
  rw [attrSet_keys]
  by_cases hk : k ∈ attrKeys l
  · rw [if_pos hk]
    exact h
  · rw [if_neg hk]
    refine List.Nodup.append h (List.nodup_singleton k) ?_
    intro a ha hak
    rw [List.mem_singleton] at hak
    subst hak
    exact hk ha

theorem attrsToDict_keys_nodup (attrs : AttrList) :
    (attrKeys (attrsToDict attrs)).Nodup := by
  suffices h : ∀ acc : AttrList, (attrKeys acc).Nodup →
      (attrKeys (attrs.foldl (fun acc kv => attrSet acc kv.1 kv.2) acc)).Nodup by
    exact h [] (by simp [attrKeys])
  induction attrs with
  | nil => intro acc hacc; simpa using hacc
  | cons kv rest ih =>
    intro acc hacc
    simp only [List.foldl_cons]
    exact ih _ (attrSet_keys_nodup acc kv.1 kv.2 hacc)

theorem attrGet_of_mem (l : AttrList) (k : String) (v : Option String)
    (hn : (attrKeys l).Nodup) (hm : (k, v) ∈ l) : attrGet l k = some v := by
  induction l with
  | nil => cases hm
  | cons kp rest ih =>
    rcases List.mem_cons.mp hm with hm | hm
    · rw [← hm]
      simp [attrGet]
    · have hk : k ∈ attrKeys rest := List.mem_map_of_mem Prod.fst hm
      have hne : kp.1 ≠ k := by
        intro he
        have := (List.nodup_cons.mp hn).1
        rw [he] at this
        exact this hk
      simp only [attrGet, if_neg hne]
      exact ih (List.nodup_cons.mp hn).2 hm

theorem attrSet_mem_self (l : AttrList) (k : String) (v : Option String) :
    (k, v) ∈ attrSet l k v := by
  unfold attrSet
  by_cases h : k ∈ attrKeys l
  · rw [if_pos h]
    rcases List.mem_map.mp h with ⟨kv, hkv, hfst⟩
    refine List.mem_map.mpr ⟨kv, hkv, ?_⟩
    rw [if_pos hfst]
  · rw [if_neg h]
    exact List.mem_append_right l (List.mem_singleton_self _)

theorem attrSet_mem_other (l : AttrList) (k k2 : String)
    (v v2 : Option String) (hne : k2 ≠ k) :
    ((k2, v2) ∈ attrSet l k v ↔ (k2, v2) ∈ l) := by
  unfold attrSet
  by_cases h : k ∈ attrKeys l
  · rw [if_pos h]
    constructor
    · intro hm
      rcases List.mem_map.mp hm with ⟨kv, hkv, heq⟩
      by_cases hk : kv.1 = k
      · rw [if_pos hk] at heq
        exact absurd (congrArg Prod.fst heq).symm hne
      · rw [if_neg hk] at heq
        rw [heq] at hkv
        exact hkv
    · intro hm
      refine List.mem_map.mpr ⟨(k2, v2), hm, ?_⟩
      rw [if_neg (by simpa using hne)]
  · rw [if_neg h]
    constructor
    · intro hm
      rcases List.mem_append.mp hm with hm | hm
      · exact hm
      · rw [List.mem_singleton] at hm
        exfalso
        exact hne (congrArg Prod.fst hm)
    · intro hm
      exact List.mem_append_left _ hm

theorem attrPop_mem (l : AttrList) (k k2 : String) (v2 : Option String) :
    ((k2, v2) ∈ attrPop l k ↔ (k2, v2) ∈ l ∧ k2 ≠ k) := by
  unfold attrPop
  rw [List.mem_filter]
  constructor
  · intro ⟨h1, h2⟩
    refine ⟨h1, ?_⟩
    simpa using h2
  · intro ⟨h1, h2⟩
    refine ⟨h1, ?_⟩
    simpa using h2

theorem attrPop_keys_nodup (l : AttrList) (k : String)
    (h : (attrKeys l).Nodup) : (attrKeys (attrPop l k)).Nodup := by
  unfold attrPop attrKeys
  exact List.Nodup.sublist ((List.filter_sublist l).map Prod.fst) h

end Timeforcv

namespace Timeforcv

/-- Stable string insertion for sorted(). -/
def insertStr (x : String) : List String → List String
  | [] => [x]
  | y :: rest => if y ≤ x then y :: insertStr x rest else x :: y :: rest

/-- sorted() over strings. -/
def sortStrings (l : List String) : List String :=
  l.foldl (fun acc x => insertStr x acc) []

theorem insertStr_perm (x : String) (l : List String) :
    (insertStr x l).Perm (x :: l) := by
  induction l with
  | nil => simp [insertStr]
  | cons y rest ih =>
    by_cases h : y ≤ x
    · simp only [insertStr]
      rw [if_pos h]
      exact (ih.cons y).trans (List.Perm.swap x y rest)
    · simp only [insertStr]
      rw [if_neg h]

theorem sortStrings_perm (l : List String) : (sortStrings l).Perm l := by
  suffices h : ∀ acc : List String,
      ((l.foldl (fun acc x => insertStr x acc) acc)).Perm (acc ++ l) by
    simpa using h []
  induction l with
  | nil => intro acc; simp
  | cons x rest ih =>
    intro acc
    simp only [List.foldl_cons]
    refine (ih (insertStr x acc)).trans ?_
    have h1 : (insertStr x acc ++ rest).Perm ((x :: acc) ++ rest) :=
      (insertStr_perm x acc).append_right rest
    refine h1.trans ?_
    simp only [List.cons_append]
    exact List.perm_middle.symm

namespace HtmlSanitize

/-- str.strip(): drop leading and trailing whitespace (char-level model of
the Python call, kept executable). -/
def pyStrip (s : String) : String :=
  String.mk (((s.toList.dropWhile Char.isWhitespace).reverse.dropWhile
    Char.isWhitespace).reverse)

/-- str.startswith(prefix), char-level. -/
def startsWithStr (s pre : String) : Bool :=
  pre.toList.isPrefixOf s.toList

/-- str.lower(), char-level. -/
def lowerStr (s : String) : String :=
  String.mk (s.toList.map Char.toLower)

/-- str.replace(",", " "), char-level (single-character pattern). -/
def replaceCommas (s : String) : String :=
  String.mk (s.toList.map (fun c => if c = ',' then ' ' else c))

/-- scripts/html_sanitize.py SAFE_SCHEMES. -/
def SAFE_SCHEMES : List String := ["http", "https", "mailto", "tg", "tel"]

/-- A valid URL scheme body: a letter followed by letters, digits, +, - or
dot (what urlparse accepts before the colon). -/
def valid_scheme_chars : List Char → Bool
  | [] => false
  | c :: rest => c.isAlpha &&
      rest.all (fun x => x.isAlphanum || x = '+' || x = '-' || x = '.')

/-- urlparse(href).scheme: the prefix before the first colon when it is a
valid scheme, else empty. -/
def url_scheme (href : String) : String :=
  let chars := href.toList
  let pre := chars.takeWhile (fun c => c ≠ ':')
  if pre.length < chars.length ∧ valid_scheme_chars pre then String.mk pre
  else ""

/-- scripts/html_sanitize.py _is_safe_href, lines 11-22. -/
def is_safe_href (href : Option String) : Bool :=
  match href with
  | none => false
  | some h0 =>
    if h0 = "" then false
    else
      let h := pyStrip h0
      if startsWithStr h "//" then false
      else if startsWithStr h "/" || startsWithStr h "#" ||
          startsWithStr h "./" || startsWithStr h "../" then true
      else SAFE_SCHEMES.contains (lowerStr (url_scheme h))

/-- The rel token list written by _build_tag for an anchor: the original
tokens (commas treated as spaces, split on whitespace) as a set, united with
noopener/noreferrer/nofollow, sorted — i.e. sorted(set(...)). -/
def rel_value (rel_raw : String) : List String :=
  sortStrings (List.dedup (splitWs (replaceCommas rel_raw) ++
    ["nofollow", "noopener", "noreferrer"]))

/-- attrs_dict.get("href"): an absent key and a valueless attribute both
give None. -/
def href_of (attrs_dict : AttrList) : Option String :=
  match attrGet attrs_dict "href" with
  | some v => v
  | none => none

/-- attrs_dict.get("rel", "") or "". -/
def rel_raw_of (attrs_dict : AttrList) : String :=
  match attrGet attrs_dict "rel" with
  | some (some s) => s
  | some none => ""
  | none => ""

/-- The attribute dict after the href check: unchanged when the href is
safe, href popped otherwise. -/
def pruned_dict (attrs : AttrList) : AttrList :=
  let attrs_dict := attrsToDict attrs
  if is_safe_href (href_of attrs_dict) then attrs_dict
  else attrPop attrs_dict "href"

/-- The anchor-attribute transformation of _build_tag
(scripts/html_sanitize.py lines 43-70, tag.lower() == "a" branch): collapse
the attribute list to a dict, drop an unsafe href, and force the rel
attribute to the sorted token set including
noopener/noreferrer/nofollow.  (The serializer then writes each (k, v) as
k="escape(v)"; rel tokens contain no escapable characters.) -/
def sanitize_anchor_attrs (attrs : AttrList) : AttrList :=
  attrSet (pruned_dict attrs) "rel"
    (some (joinSpaceStr (rel_value (rel_raw_of (pruned_dict attrs)))))

end HtmlSanitize

namespace MediaUtils

/-- The html construction of message_to_post_dict (scripts/media_utils.py
lines 254-264): telethon unparse (an oracle; none when it raises), newline
to <br>, then sanitize_links; any failure degrades to the empty string. -/
def message_to_post_html (unparsed : Option String)
    (sanitize : String → String) : String :=
  match unparsed with
  | some s => sanitize (s.replace "\n" "<br>")
  | none => ""

end MediaUtils

end Timeforcv

namespace Timeforcv

theorem attrGet_mem (l : AttrList) (k : String) (v : Option String)
    (h : attrGet l k = some v) : (k, v) ∈ l := by
  induction l with
  | nil => cases h
  | cons kp rest ih =>
    by_cases hk : kp.1 = k
    · simp only [attrGet, if_pos hk] at h
      rw [List.mem_cons]
      left
      rw [← Option.some_inj.mp h, ← hk]
    · simp only [attrGet, if_neg hk] at h
      exact List.mem_cons_of_mem kp (ih h)

theorem rel_value_words (raw : String) :
    ∀ t ∈ HtmlSanitize.rel_value raw, IsWord t.toList := by
  intro t ht
  unfold HtmlSanitize.rel_value at ht
  have ht2 := (sortStrings_perm _).mem_iff.mp ht
  rw [List.mem_dedup] at ht2
  rcases List.mem_append.mp ht2 with h | h
  · exact splitWs_words _ t h
  · have hd : t = "nofollow" ∨ t = "noopener" ∨ t = "noreferrer" := by
      simpa using h
    rcases hd with h | h | h <;> subst h <;>
      exact ⟨by decide, by decide⟩

theorem rel_value_mem_three (raw : String) :
    "noopener" ∈ HtmlSanitize.rel_value raw ∧
    "noreferrer" ∈ HtmlSanitize.rel_value raw ∧
    "nofollow" ∈ HtmlSanitize.rel_value raw := by
  unfold HtmlSanitize.rel_value
  refine ⟨?_, ?_, ?_⟩ <;>
    (refine (sortStrings_perm _).mem_iff.mpr ?_
     rw [List.mem_dedup]
     refine List.mem_append_right _ ?_
     simp)

theorem nodup_pruned_dict (attrs : AttrList) :
    (attrKeys (HtmlSanitize.pruned_dict attrs)).Nodup := by
  unfold HtmlSanitize.pruned_dict
  by_cases h : HtmlSanitize.is_safe_href
      (HtmlSanitize.href_of (attrsToDict attrs)) = true
  · simp only [h, if_true]
    exact attrsToDict_keys_nodup attrs
  · rw [Bool.not_eq_true] at h
    simp only [h, Bool.false_eq_true, if_false]
    exact attrPop_keys_nodup _ _ (attrsToDict_keys_nodup attrs)

/-- C9: in the anchor transformation of sanitize_links, the output attribute
list always carries a rel attribute whose whitespace-separated token list
contains noopener, noreferrer and nofollow, whatever the input rel was; an
href attribute survives only when _is_safe_href accepts it (relative or
fragment reference, or http/https/mailto/tg/tel scheme), an unsafe or
valueless href is removed, and a safe href is retained with its value
unchanged; and when rendering a message body raises,
message_to_post_dict stores the empty string as html instead of
propagating. -/
theorem sanitize_links_anchor_spec :
    (∀ attrs : AttrList, ∃ relv : String,
      ("rel", some relv) ∈ HtmlSanitize.sanitize_anchor_attrs attrs ∧
      "noopener" ∈ splitWs relv ∧ "noreferrer" ∈ splitWs relv ∧
      "nofollow" ∈ splitWs relv) ∧
    (∀ (attrs : AttrList) (v : Option String),
      ("href", v) ∈ HtmlSanitize.sanitize_anchor_attrs attrs →
      HtmlSanitize.is_safe_href v = true) ∧
    (∀ attrs : AttrList,
      HtmlSanitize.is_safe_href
        (HtmlSanitize.href_of (attrsToDict attrs)) = false →
      ∀ v : Option String,
        ("href", v) ∉ HtmlSanitize.sanitize_anchor_attrs attrs) ∧
    (∀ (attrs : AttrList) (v : Option String),
      attrGet (attrsToDict attrs) "href" = some v →
      HtmlSanitize.is_safe_href v = true →
      ("href", v) ∈ HtmlSanitize.sanitize_anchor_attrs attrs) ∧
    (∀ sanitize : String → String,
      MediaUtils.message_to_post_html none sanitize = "") := by
  have hrelne : ("href" : String) ≠ "rel" := by decide
  refine ⟨?_, ?_, ?_, ?_, fun _ => rfl⟩
  · intro attrs
    refine ⟨joinSpaceStr (HtmlSanitize.rel_value
      (HtmlSanitize.rel_raw_of (HtmlSanitize.pruned_dict attrs))), ?_, ?_, ?_, ?_⟩
    · exact attrSet_mem_self _ _ _
    all_goals
      rw [splitWs_joinSpaceStr _ (rel_value_words _)]
    · exact (rel_value_mem_three _).1
    · exact (rel_value_mem_three _).2.1
    · exact (rel_value_mem_three _).2.2
  · intro attrs v hm
    unfold HtmlSanitize.sanitize_anchor_attrs at hm
    rw [attrSet_mem_other _ _ _ _ _ hrelne] at hm
    unfold HtmlSanitize.pruned_dict at hm
    by_cases hsafe : HtmlSanitize.is_safe_href
        (HtmlSanitize.href_of (attrsToDict attrs)) = true
    · simp only [hsafe, if_true] at hm
      have hget := attrGet_of_mem _ _ _ (attrsToDict_keys_nodup attrs) hm
      have : HtmlSanitize.href_of (attrsToDict attrs) = v := by
        unfold HtmlSanitize.href_of
        rw [hget]
      rw [this] at hsafe
      exact hsafe
    · rw [Bool.not_eq_true] at hsafe
      simp only [hsafe, Bool.false_eq_true, if_false] at hm
      rw [attrPop_mem] at hm
      exact absurd rfl hm.2
  · intro attrs hnosafe v hm
    unfold HtmlSanitize.sanitize_anchor_attrs at hm
    rw [attrSet_mem_other _ _ _ _ _ hrelne] at hm
    unfold HtmlSanitize.pruned_dict at hm
    simp only [hnosafe, Bool.false_eq_true, if_false] at hm
    rw [attrPop_mem] at hm
    exact absurd rfl hm.2
  · intro attrs v hget hsafe
    unfold HtmlSanitize.sanitize_anchor_attrs
    rw [attrSet_mem_other _ _ _ _ _ hrelne]
    unfold HtmlSanitize.pruned_dict
    have hhref : HtmlSanitize.href_of (attrsToDict attrs) = v := by
      unfold HtmlSanitize.href_of
      rw [hget]
    have hcond : HtmlSanitize.is_safe_href
        (HtmlSanitize.href_of (attrsToDict attrs)) = true := by
      rw [hhref]
      exact hsafe
    simp only [hcond, if_true]
    exact attrGet_mem _ _ _ hget

/-- A concrete anchor attribute list with an unsafe javascript href. -/
def wAttrs : AttrList := [("href", some "javascript:alert(1)"), ("rel", some "me")]

/-- A concrete anchor attribute list with a safe https href. -/
def wAttrsSafe : AttrList := [("href", some "https://example.com/x")]

/-- Witness for C9: on concrete anchors the unsafe href is removed and the
safe href retained. -/
theorem sanitize_links_anchor_spec_witness :
    ("href", some "javascript:alert(1)") ∉
      HtmlSanitize.sanitize_anchor_attrs wAttrs ∧
    ("href", some "https://example.com/x") ∈
      HtmlSanitize.sanitize_anchor_attrs wAttrsSafe :=
  ⟨sanitize_links_anchor_spec.2.2.1 wAttrs (by decide)
      (some "javascript:alert(1)"),
   sanitize_links_anchor_spec.2.2.2.1 wAttrsSafe
      (some "https://example.com/x") (by decide) (by decide)⟩

end Timeforcv
